import Mathlib

set_option maxRecDepth 10000

/-!
Verification development for the CV-adaptation engine of the JDResume
repository.  The Python sources under src/agent are shallowly embedded:
documents are lists of characters, each regular-expression operation used by
the code is modelled by an explicit recursive function with the same
first-match / replace-all semantics on the concrete patterns the code uses,
and the external collaborators (the generation API call and the LaTeX
compiler) are parameters of the orchestration model.
-/

/-! ## Basic characters and list helpers -/

def bsC : Char := '\\'

def lbC : Char := '{'

def rbC : Char := '}'

def qC : Char := '"'

def nulC : Char := '\x00'

/-- startsWith pat cs: pat is a leading segment of cs (List.isPrefixOf). -/
def startsWith : List Char → List Char → Bool
| [], _ => true
| _ :: _, [] => false
| p :: ps, c :: cs => p = c && startsWith ps cs

/-- occursB pat cs: pat occurs as a contiguous segment of cs. -/
def occursB (pat : List Char) : List Char → Bool
| [] => startsWith pat []
| c :: rest => startsWith pat (c :: rest) || occursB pat rest

theorem startsWith_self_append (p x : List Char) : startsWith p (p ++ x) = true := by
  induction p with
  | nil => rfl
  | cons a ps ih => simp [startsWith, ih]

theorem startsWith_eq_append (p cs : List Char) (h : startsWith p cs = true) :
    cs = p ++ cs.drop p.length := by
  induction p generalizing cs with
  | nil => simp
  | cons a ps ih =>
    cases cs with
    | nil => simp [startsWith] at h
    | cons c rest =>
      simp [startsWith] at h
      obtain ⟨h1, h2⟩ := h
      have := ih rest h2
      simp [h1, List.drop]
      exact this

theorem startsWith_append_left (p xs ys : List Char) (hlen : p.length ≤ xs.length) :
    startsWith p (xs ++ ys) = startsWith p xs := by
  induction p generalizing xs with
  | nil => simp [startsWith]
  | cons a ps ih =>
    cases xs with
    | nil => simp at hlen
    | cons x rest =>
      simp only [List.cons_append, startsWith, List.append_eq]
      rw [ih rest (by simpa using hlen)]

theorem occursB_cons_false (pat : List Char) (c : Char) (rest : List Char)
    (h : occursB pat (c :: rest) = false) :
    startsWith pat (c :: rest) = false ∧ occursB pat rest = false := by
  simp [occursB] at h
  exact h

/-- splitFirst pat cs: split cs around the first occurrence of pat, returning
the part before the occurrence and the part after it (the model of searching
for a literal pattern with re.search). -/
def splitFirst (pat : List Char) : List Char → Option (List Char × List Char)
| [] => if startsWith pat [] then some ([], []) else none
| c :: rest =>
  if startsWith pat (c :: rest) then some ([], (c :: rest).drop pat.length)
  else
    match splitFirst pat rest with
    | some (pre, post) => some (c :: pre, post)
    | none => none

theorem splitFirst_eq (pat cs pre post : List Char)
    (h : splitFirst pat cs = some (pre, post)) : cs = pre ++ pat ++ post := by
  induction cs generalizing pre post with
  | nil =>
    simp only [splitFirst] at h
    split at h
    · rename_i hsw
      cases pat with
      | nil =>
        simp at h
        obtain ⟨h1, h2⟩ := h
        subst h1; subst h2; rfl
      | cons a ps => simp [startsWith] at hsw
    · simp at h
  | cons c rest ih =>
    simp only [splitFirst] at h
    split at h
    · rename_i hsw
      have he := startsWith_eq_append pat (c :: rest) hsw
      simp at h
      obtain ⟨h1, h2⟩ := h
      subst h1; subst h2
      simpa using he
    · rename_i hsw
      cases hsf : splitFirst pat rest with
      | none => rw [hsf] at h; simp at h
      | some pp =>
        rw [hsf] at h
        cases pp with
        | mk p2 q2 =>
          simp at h
          obtain ⟨h1, h2⟩ := h
          subst h1; subst h2
          have := ih p2 q2 hsf
          simp [this]

theorem splitFirst_none (pat cs : List Char) (hp : pat ≠ [])
    (h : occursB pat cs = false) : splitFirst pat cs = none := by
  induction cs with
  | nil =>
    simp only [splitFirst]
    cases pat with
    | nil => exact absurd rfl hp
    | cons a ps => simp [startsWith]
  | cons c rest ih =>
    obtain ⟨h1, h2⟩ := occursB_cons_false pat c rest h
    simp only [splitFirst, h1]
    rw [ih h2]
    simp

/-! ## Brace balance validator (LaTeXWriter._validate_braces)

The Python loop walks an index i over the content; a character whose
immediately preceding character is a backslash is skipped entirely
(`if i > 0 and content[i-1] == "\\": i += 1; continue`), otherwise an open
brace increments and a close brace decrements the depth, a negative depth
aborts with the offending position, and a nonzero final depth is reported.
-/

inductive BraceOutcome : Type
| valid : BraceOutcome
| invalidClosing : Nat → BraceOutcome
| invalidOpen : Int → BraceOutcome
deriving DecidableEq, Repr

def braceDelta (c : Char) : Int := if c = lbC then 1 else if c = rbC then -1 else 0

/-- vbAux prev i depth rest: the loop of _validate_braces, where prev is the
character at index i-1 (none at the start). -/
def vbAux : Option Char → Nat → Int → List Char → BraceOutcome
| _, _, depth, [] =>
  if depth ≠ 0 then BraceOutcome.invalidOpen depth else BraceOutcome.valid
| prev, i, depth, c :: rest =>
  if prev = some bsC then vbAux (some c) (i + 1) depth rest
  else
    if depth + braceDelta c < 0 then BraceOutcome.invalidClosing i
    else vbAux (some c) (i + 1) (depth + braceDelta c) rest

def validateBraces (content : List Char) : BraceOutcome := vbAux none 0 0 content

/-- Net depth of the content under the counting rule of the code: a character
contributes only when the immediately preceding character is not a
backslash. -/
def netDepth : Option Char → List Char → Int
| _, [] => 0
| prev, c :: rest =>
  (if prev = some bsC then 0 else braceDelta c) + netDepth (some c) rest

/-- minOk prev d cs: every running depth stays nonnegative. -/
def minOk : Option Char → Int → List Char → Bool
| _, _, [] => true
| prev, d, c :: rest =>
  (if prev = some bsC then decide (0 ≤ d) && minOk (some c) d rest
   else decide (0 ≤ d + braceDelta c) && minOk (some c) (d + braceDelta c) rest)

theorem vbAux_valid_iff (cs : List Char) : ∀ (prev : Option Char) (i : Nat) (d : Int),
    0 ≤ d →
    (vbAux prev i d cs = BraceOutcome.valid ↔
      (d + netDepth prev cs = 0 ∧ minOk prev d cs = true)) := by
  induction cs with
  | nil =>
    intro prev i d _
    simp only [vbAux, netDepth, minOk]
    constructor
    · intro h
      split at h
      · exact absurd h (by simp)
      · rename_i hz; simp at hz; simp [hz]
    · intro h
      have : d = 0 := by omega
      simp [this]
  | cons c rest ih =>
    intro prev i d hd
    simp only [vbAux, netDepth, minOk]
    by_cases hp : prev = some bsC
    · rw [if_pos hp, if_pos hp, if_pos hp, ih (some c) (i + 1) d hd]
      have hdec : decide (0 ≤ d) = true := by simp [hd]
      rw [hdec]
      constructor
      · rintro ⟨h1, h2⟩; exact ⟨by omega, by simp [h2]⟩
      · rintro ⟨h1, h2⟩
        simp at h2
        exact ⟨by omega, h2⟩
    · rw [if_neg hp, if_neg hp, if_neg hp]
      by_cases hneg : d + braceDelta c < 0
      · rw [if_pos hneg]
        constructor
        · intro h; exact BraceOutcome.noConfusion h
        · rintro ⟨h1, h2⟩
          have hz : decide (0 ≤ d + braceDelta c) = false := by simp; omega
          rw [hz] at h2
          simp at h2
      · rw [if_neg hneg, ih (some c) (i + 1) (d + braceDelta c) (by omega)]
        have ht : decide (0 ≤ d + braceDelta c) = true := by simp; omega
        rw [ht]
        constructor
        · rintro ⟨h1, h2⟩; exact ⟨by omega, by simp [h2]⟩
        · rintro ⟨h1, h2⟩
          simp at h2
          exact ⟨by omega, h2⟩

theorem vbAux_closing (cs : List Char) : ∀ (prev : Option Char) (i : Nat) (d : Int) (p : Nat),
    0 ≤ d → vbAux prev i d cs = BraceOutcome.invalidClosing p →
    i ≤ p ∧ p - i < cs.length ∧ cs.get? (p - i) = some rbC := by
  induction cs with
  | nil =>
    intro prev i d p _ h
    simp only [vbAux] at h
    split at h <;> simp at h
  | cons c rest ih =>
    intro prev i d p hd h
    simp only [vbAux] at h
    split at h
    · have := ih (some c) (i + 1) d p hd h
      refine ⟨by omega, ?_, ?_⟩
      · simp; omega
      · have h2 := this.2.2
        have h1 := this.1
        have : p - i = (p - (i + 1)) + 1 := by omega
        rw [this]
        simpa using h2
    · split at h
      · rename_i hneg
        injection h with hip
        have hc : c = rbC := by
          by_contra hc
          have hδ : braceDelta c = 1 ∨ braceDelta c = 0 := by
            unfold braceDelta
            by_cases h1 : c = lbC
            · simp [h1]
            · simp [h1, hc]
          omega
        refine ⟨by omega, by simp; omega, ?_⟩
        have hz : p - i = 0 := by omega
        rw [hz]
        simp [hc]
      · have := ih (some c) (i + 1) (d + braceDelta c) p (by omega) h
        refine ⟨by omega, ?_, ?_⟩
        · simp; omega
        · have h2 := this.2.2
          have h1 := this.1
          have : p - i = (p - (i + 1)) + 1 := by omega
          rw [this]
          simpa using h2

theorem vbAux_open (cs : List Char) : ∀ (prev : Option Char) (i : Nat) (d0 : Int) (d : Int),
    vbAux prev i d0 cs = BraceOutcome.invalidOpen d → d ≠ 0 := by
  induction cs with
  | nil =>
    intro prev i d0 d h
    simp only [vbAux] at h
    split at h
    · rename_i hz; simp at h; omega
    · simp at h
  | cons c rest ih =>
    intro prev i d0 d h
    simp only [vbAux] at h
    split at h
    · exact ih (some c) (i + 1) d0 d h
    · split at h
      · simp at h
      · exact ih (some c) (i + 1) (d0 + braceDelta c) d h

theorem vbAux_append_bs (cs : List Char) : ∀ (prev : Option Char) (i : Nat) (d : Int),
    0 ≤ d → vbAux prev i d (cs ++ [bsC]) = vbAux prev i d cs := by
  induction cs with
  | nil =>
    intro prev i d hd
    simp only [List.nil_append, vbAux]
    by_cases hp : prev = some bsC
    · simp [hp, vbAux]
    · have hz : braceDelta bsC = 0 := by decide
      simp [hp, hz, vbAux]
      intro h
      omega
  | cons c rest ih =>
    intro prev i d hd
    simp only [List.cons_append, vbAux]
    by_cases hp : prev = some bsC
    · simp only [if_pos hp]
      exact ih (some c) (i + 1) d hd
    · simp only [if_neg hp]
      by_cases hneg : d + braceDelta c < 0
      · simp [hneg]
      · simp only [if_neg hneg]
        exact ih (some c) (i + 1) (d + braceDelta c) (by omega)

/-- specEscapeDepth: net structural depth under the semantics the claim C2
states (modelled from the spec wording, for comparison with the code): a
delimiter is literal exactly when it is preceded by an odd run of
backslashes, so a brace after a doubled backslash still counts. -/
def specEscapeDepth : Nat → List Char → Int
| _, [] => 0
| k, c :: rest =>
  if c = bsC then specEscapeDepth (k + 1) rest
  else (if k % 2 = 0 then braceDelta c else 0) + specEscapeDepth 0 rest

/-- c2 counterexample: on the three-character input backslash-backslash-open-brace
the claim demands that the brace (preceded by an escaped, doubled backslash)
count toward depth, giving net depth 1 and hence an Invalid outcome; the code
treats any character whose immediate predecessor is a backslash as literal and
returns Valid. -/
theorem c2_counterexample :
    specEscapeDepth 0 (bsC :: bsC :: lbC :: []) = 1 ∧
    validateBraces (bsC :: bsC :: lbC :: []) = BraceOutcome.valid := by
  constructor
  · decide
  · decide

/-- c2 (amended): _validate_braces treats a delimiter as literal exactly when
the immediately preceding character is a backslash, whether or not that
backslash is itself escaped; the input backslash-brace-backslash-brace is
Valid with net depth 0, and a brace preceded by a doubled backslash is also
skipped (so backslash-backslash-brace is Valid as well).  The outcome is Valid
iff the net depth under this immediate-predecessor rule is zero and no running
depth goes negative. -/
theorem c2_amended :
    validateBraces (bsC :: lbC :: bsC :: rbC :: []) = BraceOutcome.valid ∧
    validateBraces (bsC :: bsC :: lbC :: []) = BraceOutcome.valid ∧
    (∀ cs : List Char,
      validateBraces cs = BraceOutcome.valid ↔
        (netDepth none cs = 0 ∧ minOk none 0 cs = true)) := by
  refine ⟨by decide, by decide, ?_⟩
  intro cs
  have := vbAux_valid_iff cs none 0 0 (le_refl 0)
  simpa [validateBraces] using this

/-- c3: _validate_braces scans left to right with an integer depth counter;
"{a{b}c}" is Valid, "{a{b}c" is Invalid with residual depth 1, "a}b" is
Invalid at offset 1 (the offset of the close brace); any reported closing
offset is in bounds and points at a close brace, any reported residual depth
is nonzero, and a trailing backslash never changes the outcome (no
out-of-bounds read). -/
theorem c3_thm :
    (validateBraces (lbC :: 'a' :: lbC :: 'b' :: rbC :: 'c' :: rbC :: []) =
        BraceOutcome.valid ∧
      validateBraces (lbC :: 'a' :: lbC :: 'b' :: rbC :: 'c' :: []) =
        BraceOutcome.invalidOpen 1 ∧
      validateBraces ('a' :: rbC :: 'b' :: []) = BraceOutcome.invalidClosing 1) ∧
    (∀ (cs : List Char) (p : Nat),
      validateBraces cs = BraceOutcome.invalidClosing p →
        p < cs.length ∧ cs.get? p = some rbC) ∧
    (∀ (cs : List Char) (d : Int),
      validateBraces cs = BraceOutcome.invalidOpen d → d ≠ 0) ∧
    (∀ cs : List Char, validateBraces (cs ++ [bsC]) = validateBraces cs) := by
  refine ⟨⟨by decide, by decide, by decide⟩, ?_, ?_, ?_⟩
  · intro cs p h
    have := vbAux_closing cs none 0 0 p (le_refl 0) h
    simpa using this.2
  · intro cs d h
    exact vbAux_open cs none 0 0 d h
  · intro cs
    exact vbAux_append_bs cs none 0 0 (le_refl 0)

/-- c3 witness: the general bounds of c3_thm applied at the concrete inputs
"a}b" (offset 1 in bounds, pointing at the close brace) and "{a{b}c"
(residual depth 1 is nonzero). -/
theorem c3_witness :
    (1 < ('a' :: rbC :: 'b' :: []).length ∧
      ('a' :: rbC :: 'b' :: []).get? 1 = some rbC) ∧ (1 : Int) ≠ 0 :=
  ⟨c3_thm.2.1 ('a' :: rbC :: 'b' :: []) 1 (by decide),
   c3_thm.2.2.1 (lbC :: 'a' :: lbC :: 'b' :: rbC :: 'c' :: []) 1 (by decide)⟩

/-! ## Region anchors (LaTeXParser.extract_sections / LaTeXWriter.apply_adaptations)

Each editable region is delimited by the literal anchors of the regular
expressions in the source: tagline uses a greedy nonempty run of
non-close-brace characters, the other four regions use a lazy stretch between
a literal start anchor and a literal end anchor (with DOTALL).
-/

def tagInit : List Char := ("\\tagline").data

def tagAnchor : List Char := tagInit ++ [lbC]

def hbA : List Char := ("\\highlightbar").data ++ [lbC]

def hbB : List Char := '\n' :: rbC :: []

def mbA : List Char := ("\\mainbar").data ++ [lbC]

def mbB : List Char := ("\\makebody").data

def expA : List Char :=
  ("\\section").data ++ [lbC] ++ ("Experiences description").data ++ [rbC]

def expB : List Char := ("\\makebody").data

def gsA : List Char :=
  ("\\section").data ++ [lbC] ++ ("General Skills").data ++ [rbC]

def gsB : List Char :=
  ("\\section").data ++ [lbC] ++ ("Wheel Chart").data ++ [rbC]

/-- findRegion a b cs: model of re.search on the pattern a(.*?)b with DOTALL:
first occurrence of the literal a, then the shortest stretch up to the first
occurrence of the literal b; returns (before, content, after). -/
def findRegion (a b : List Char) (cs : List Char) :
    Option (List Char × List Char × List Char) :=
  match splitFirst a cs with
  | none => none
  | some (pre, rest) =>
    match splitFirst b rest with
    | none => none
    | some (content, post) => some (pre, content, post)

/-- tagContent rest: the greedy run of non-close-brace characters. -/
def tagContent (rest : List Char) : List Char := rest.takeWhile (fun x => x != rbC)

/-- taglineMatchAt cs: the tagline pattern, a greedy nonempty run of
non-close-brace characters then a close brace, matched at the start of cs. -/
def taglineMatchAt (cs : List Char) : Option (List Char × List Char) :=
  if startsWith tagAnchor cs then
    if tagContent (cs.drop tagAnchor.length) ≠ [] ∧
        (cs.drop tagAnchor.length).drop (tagContent (cs.drop tagAnchor.length)).length ≠ [] then
      some (tagContent (cs.drop tagAnchor.length),
        (cs.drop tagAnchor.length).drop ((tagContent (cs.drop tagAnchor.length)).length + 1))
    else none
  else none

/-- findTagline cs: re.search of the tagline pattern: the first position where
the full pattern matches. -/
def findTagline : List Char → Option (List Char × List Char × List Char)
| [] => none
| c :: rest =>
  match taglineMatchAt (c :: rest) with
  | some (content, post) => some ([], content, post)
  | none =>
    match findTagline rest with
    | some (pre, content, post) => some (c :: pre, content, post)
    | none => none

def extractTagline (cs : List Char) : Option (List Char) :=
  (findTagline cs).map (fun t => t.2.1)

def extractRegionG (a b cs : List Char) : Option (List Char) :=
  (findRegion a b cs).map (fun t => t.2.1)

/-- CVSections: the dataclass of optional section contents; a missing anchor
is represented by none, never by the empty string. -/
structure CVSections where
  tagline : Option (List Char)
  highlightbar : Option (List Char)
  mainbar : Option (List Char)
  experiences : Option (List Char)
  general_skills : Option (List Char)
deriving DecidableEq, Repr

/-- extract_sections: each section is searched independently; a missing anchor
leaves its field at none and the others untouched. -/
def extract_sections (cs : List Char) : CVSections :=
  { tagline := extractTagline cs
    highlightbar := extractRegionG hbA hbB cs
    mainbar := extractRegionG mbA mbB cs
    experiences := extractRegionG expA expB cs
    general_skills := extractRegionG gsA gsB cs }

def naStr : List Char := ("N/A").data

/-- orNA: the Python idiom `value or "N/A"`, which replaces both None and the
empty string by the placeholder. -/
def orNA : Option (List Char) → List Char
| none => naStr
| some s => if s = [] then naStr else s

structure SectionsDict where
  tagline : List Char
  highlightbar : List Char
  mainbar : List Char
  experiences : List Char
  general_skills : List Char
deriving DecidableEq, Repr

def sections_to_dict (s : CVSections) : SectionsDict :=
  { tagline := orNA s.tagline
    highlightbar := orNA s.highlightbar
    mainbar := orNA s.mainbar
    experiences := orNA s.experiences
    general_skills := orNA s.general_skills }

/-! ## Substitution engine (LaTeXWriter.apply_adaptations) -/

def isPySpace (c : Char) : Bool :=
  c = ' ' || c = '\t' || c = '\n' || c = '\r' || c = '\x0b' || c = '\x0c'

/-- pyStrip: str.strip() on ASCII whitespace. -/
def pyStrip (cs : List Char) : List Char :=
  ((cs.dropWhile isPySpace).reverse.dropWhile isPySpace).reverse

/-- removeTagWrapper: the anchored substitution that removes an accidental
tagline command wrapper from the adapted content (pattern: start anchor, a
nonempty greedy stretch, a close brace at the very end). -/
def removeTagWrapper (cs : List Char) : List Char :=
  if startsWith tagAnchor cs ∧ cs.getLast? = some rbC ∧
      tagAnchor.length + 1 < cs.length then
    (cs.drop tagAnchor.length).dropLast
  else cs

/-- subAllFuel find repl: re.sub with a literal replacement, replacing every
non-overlapping match located by find, scanning left to right. -/
def subAllFuel (find : List Char → Option (List Char × List Char × List Char))
    (repl : List Char) : Nat → List Char → List Char
| 0, cs => cs
| n + 1, cs =>
  match find cs with
  | none => cs
  | some (pre, _, post) => pre ++ repl ++ subAllFuel find repl n post

def subAll (find : List Char → Option (List Char × List Char × List Char))
    (repl : List Char) (cs : List Char) : List Char :=
  subAllFuel find repl (cs.length + 1) cs

def mkTagRepl (content : List Char) : List Char := tagAnchor ++ content ++ [rbC]

/-- taglineBranch: the tagline branch of apply_adaptations: strip, remove an
accidental command wrapper, then substitute the document (the brace warning
has no effect on the result).  The replacement is produced by a lambda, so the
adapted text is inserted verbatim. -/
def taglineBranch (v cs : List Char) : List Char :=
  subAll findTagline (mkTagRepl (removeTagWrapper (pyStrip v))) cs

def mkHbRepl (content : List Char) : List Char := hbA ++ '\n' :: (content ++ hbB)

def hbBranch (v cs : List Char) : List Char :=
  subAll (findRegion hbA hbB) (mkHbRepl (pyStrip v)) cs

def mkMbRepl (content : List Char) : List Char :=
  mbA ++ '\n' :: (content ++ '\n' :: '\n' :: mbB)

def mbBranch (v cs : List Char) : List Char :=
  subAll (findRegion mbA mbB) (mkMbRepl (pyStrip v)) cs

def mkExpRepl (content : List Char) : List Char :=
  expA ++ '\n' :: (content ++ '\n' :: '\n' :: expB)

def expBranch (v cs : List Char) : List Char :=
  subAll (findRegion expA expB) (mkExpRepl (pyStrip v)) cs

def mkGsRepl (content : List Char) : List Char :=
  gsA ++ '\n' :: (content ++ '\n' :: '\n' :: gsB)

def gsBranch (v cs : List Char) : List Char :=
  subAll (findRegion gsA gsB) (mkGsRepl (pyStrip v)) cs

inductive Region : Type
| tagline | highlightbar | mainbar | experiences | general_skills
deriving DecidableEq, Repr

def extractRegion : Region → List Char → Option (List Char)
| Region.tagline, cs => extractTagline cs
| Region.highlightbar, cs => extractRegionG hbA hbB cs
| Region.mainbar, cs => extractRegionG mbA mbB cs
| Region.experiences, cs => extractRegionG expA expB cs
| Region.general_skills, cs => extractRegionG gsA gsB cs

def subRegion : Region → List Char → List Char → List Char
| Region.tagline, v, cs => taglineBranch v cs
| Region.highlightbar, v, cs => hbBranch v cs
| Region.mainbar, v, cs => mbBranch v cs
| Region.experiences, v, cs => expBranch v cs
| Region.general_skills, v, cs => gsBranch v cs

/-- Adaptations: the mapping returned by the generator, with one optional
entry per known region name. -/
structure Adaptations where
  tagline : Option (List Char) := none
  highlightbar : Option (List Char) := none
  mainbar : Option (List Char) := none
  experiences : Option (List Char) := none
  general_skills : Option (List Char) := none

/-- applySubstitutions: the pure substitution part of apply_adaptations (each
branch runs only when its key is present, in the order of the source). -/
def applySubstitutions (cs : List Char) (ad : Adaptations) : List Char :=
  let d1 := match ad.tagline with | some v => taglineBranch v cs | none => cs
  let d2 := match ad.highlightbar with | some v => hbBranch v d1 | none => d1
  let d3 := match ad.mainbar with | some v => mbBranch v d2 | none => d2
  let d4 := match ad.experiences with | some v => expBranch v d3 | none => d3
  match ad.general_skills with | some v => gsBranch v d4 | none => d4

/-! ## Facts about the find and substitution functions -/

theorem append_drop_length (xs ys : List Char) : (xs ++ ys).drop xs.length = ys := by
  induction xs with
  | nil => simp
  | cons a tl ih => simpa using ih

theorem append_drop_length_succ (xs : List Char) (d : Char) (ys : List Char) :
    (xs ++ d :: ys).drop (xs.length + 1) = ys := by
  induction xs with
  | nil => simp
  | cons a tl ih => simpa using ih

theorem takeWhile_append_stop (c post : List Char) (hcb : rbC ∉ c) :
    (c ++ rbC :: post).takeWhile (fun x => x != rbC) = c := by
  induction c with
  | nil => simp
  | cons a tl ih =>
    have ha : a ≠ rbC := by intro h; exact hcb (by simp [h])
    have htl : rbC ∉ tl := fun h => hcb (by simp [h])
    simp [List.takeWhile_cons, ha, ih htl]

theorem takeWhile_drop_decomp (p : Char → Bool) (cs : List Char) :
    cs = cs.takeWhile p ++ cs.drop (cs.takeWhile p).length ∧
    (∀ d tl, cs.drop (cs.takeWhile p).length = d :: tl → p d = false) := by
  induction cs with
  | nil => exact ⟨rfl, by intro d tl h; simp at h⟩
  | cons a rest ih =>
    by_cases hp : p a
    · constructor
      · simpa [List.takeWhile_cons, hp] using ih.1
      · intro d tl h
        apply ih.2 d tl
        simpa [List.takeWhile_cons, hp] using h
    · constructor
      · simp [List.takeWhile_cons, hp]
      · intro d tl h
        simp [List.takeWhile_cons, hp] at h
        rw [← h.1]
        simpa using hp

theorem tagContent_append_stop (c post : List Char) (hcb : rbC ∉ c) :
    tagContent (c ++ rbC :: post) = c :=
  takeWhile_append_stop c post hcb

theorem taglineMatchAt_at (c post : List Char) (hc : c ≠ []) (hcb : rbC ∉ c) :
    taglineMatchAt (tagAnchor ++ (c ++ rbC :: post)) = some (c, post) := by
  unfold taglineMatchAt
  rw [if_pos (startsWith_self_append tagAnchor _)]
  rw [append_drop_length]
  rw [tagContent_append_stop c post hcb]
  rw [append_drop_length]
  rw [append_drop_length_succ]
  rw [if_pos ⟨hc, by simp⟩]

theorem taglineMatchAt_none (cs : List Char) (h : startsWith tagAnchor cs = false) :
    taglineMatchAt cs = none := by
  unfold taglineMatchAt
  rw [if_neg (by simp [h])]

theorem taglineMatchAt_eq (cs ct ps : List Char)
    (h : taglineMatchAt cs = some (ct, ps)) :
    cs = tagAnchor ++ (ct ++ rbC :: ps) ∧ ct ≠ [] := by
  unfold taglineMatchAt at h
  split at h
  · rename_i hsw
    split at h
    · rename_i hcond
      simp only [tagContent] at h hcond
      have he := startsWith_eq_append tagAnchor cs hsw
      have hdec := takeWhile_drop_decomp (fun x => x != rbC) (cs.drop tagAnchor.length)
      simp only [Option.some.injEq, Prod.mk.injEq] at h
      set tw := (cs.drop tagAnchor.length).takeWhile (fun x => x != rbC) with htw
      obtain ⟨h1, h2⟩ := h
      cases hdr : (cs.drop tagAnchor.length).drop tw.length with
      | nil => exact absurd hdr hcond.2
      | cons d tl =>
        have hd : d = rbC := by
          have := hdec.2 d tl hdr
          simpa using this
        have hr2 : cs.drop tagAnchor.length = tw ++ d :: tl := by
          conv_lhs => rw [hdec.1]
          rw [hdr]
        have hps : ps = tl := by
          rw [← h2, hr2, append_drop_length_succ]
        constructor
        · rw [he, hr2, h1, hd, ← hps]
        · rw [← h1]; exact hcond.1
    · simp at h
  · simp at h

theorem findTagline_here (cs content post : List Char) (hne : cs ≠ [])
    (hm : taglineMatchAt cs = some (content, post)) :
    findTagline cs = some ([], content, post) := by
  cases cs with
  | nil => exact absurd rfl hne
  | cons a rest => simp only [findTagline, hm]

theorem findTagline_step (a : Char) (rest : List Char)
    (hm : taglineMatchAt (a :: rest) = none) :
    findTagline (a :: rest) =
      (findTagline rest).map (fun t => (a :: t.1, t.2.1, t.2.2)) := by
  simp only [findTagline, hm]
  cases findTagline rest with
  | none => rfl
  | some t => obtain ⟨p, c, q⟩ := t; rfl

theorem findTagline_none (cs : List Char) (h : occursB tagAnchor cs = false) :
    findTagline cs = none := by
  induction cs with
  | nil => rfl
  | cons a rest ih =>
    obtain ⟨h1, h2⟩ := occursB_cons_false _ _ _ h
    rw [findTagline_step a rest (taglineMatchAt_none _ h1), ih h2]
    rfl

theorem tagAnchor_ne_nil : tagAnchor ≠ [] := by decide

theorem findTagline_at (pre c post : List Char)
    (hpre : occursB tagAnchor (pre ++ tagInit) = false)
    (hc : c ≠ []) (hcb : rbC ∉ c) :
    findTagline (pre ++ (tagAnchor ++ (c ++ rbC :: post))) = some (pre, c, post) := by
  induction pre with
  | nil =>
    simp only [List.nil_append]
    apply findTagline_here
    · intro h
      rw [List.append_eq_nil] at h
      exact tagAnchor_ne_nil h.1
    · exact taglineMatchAt_at c post hc hcb
  | cons a pre' ih =>
    have hpre2 : occursB tagAnchor (a :: (pre' ++ tagInit)) = false := by
      simpa using hpre
    have hsw0 := (occursB_cons_false _ _ _ hpre2).1
    have hpre' := (occursB_cons_false _ _ _ hpre2).2
    have hassoc : (a :: pre') ++ (tagAnchor ++ (c ++ rbC :: post)) =
        (a :: (pre' ++ tagInit)) ++ (lbC :: (c ++ rbC :: post)) := by
      simp [tagAnchor, List.append_assoc]
    have hlen : tagAnchor.length ≤ (a :: (pre' ++ tagInit)).length := by
      simp [tagAnchor]
    have hsw : startsWith tagAnchor ((a :: pre') ++ (tagAnchor ++ (c ++ rbC :: post))) = false := by
      rw [hassoc, startsWith_append_left _ _ _ hlen]
      exact hsw0
    have hm : taglineMatchAt (a :: (pre' ++ (tagAnchor ++ (c ++ rbC :: post)))) = none := by
      apply taglineMatchAt_none
      simpa using hsw
    rw [show (a :: pre') ++ (tagAnchor ++ (c ++ rbC :: post)) =
      a :: (pre' ++ (tagAnchor ++ (c ++ rbC :: post))) from rfl]
    rw [findTagline_step _ _ hm, ih hpre']
    rfl

theorem findTagline_eq (cs : List Char) : ∀ (pre c post : List Char),
    findTagline cs = some (pre, c, post) →
    cs = pre ++ (tagAnchor ++ (c ++ rbC :: post)) := by
  induction cs with
  | nil => intro pre c post h; simp [findTagline] at h
  | cons a rest ih =>
    intro pre c post h
    cases hm : taglineMatchAt (a :: rest) with
    | some t =>
      obtain ⟨ct, ps⟩ := t
      rw [findTagline_here (a :: rest) ct ps (by simp) hm] at h
      simp only [Option.some.injEq, Prod.mk.injEq] at h
      obtain ⟨h1, h2, h3⟩ := h
      have hd := (taglineMatchAt_eq _ _ _ hm).1
      rw [hd, ← h1, ← h2, ← h3]
      simp
    | none =>
      rw [findTagline_step a rest hm] at h
      cases hf : findTagline rest with
      | none => rw [hf] at h; simp at h
      | some t =>
        obtain ⟨p2, c2, q2⟩ := t
        rw [hf] at h
        simp only [Option.map_some', Option.some.injEq, Prod.mk.injEq] at h
        obtain ⟨h1, h2, h3⟩ := h
        have := ih p2 c2 q2 hf
        rw [← h1, ← h2, ← h3, this]
        rfl

theorem findTagline_shrink : ∀ (cs pre c post : List Char),
    findTagline cs = some (pre, c, post) → post.length < cs.length := by
  intro cs pre c post h
  rw [findTagline_eq cs pre c post h]
  simp only [List.length_append, List.length_cons]
  omega

theorem findRegion_eq (a b cs pre c post : List Char)
    (h : findRegion a b cs = some (pre, c, post)) :
    cs = pre ++ a ++ (c ++ b ++ post) := by
  unfold findRegion at h
  cases h1 : splitFirst a cs with
  | none => rw [h1] at h; simp at h
  | some t1 =>
    obtain ⟨pre1, rest1⟩ := t1
    rw [h1] at h
    dsimp only at h
    cases h2 : splitFirst b rest1 with
    | none => rw [h2] at h; simp at h
    | some t2 =>
      obtain ⟨c2, post2⟩ := t2
      rw [h2] at h
      simp only [Option.some.injEq, Prod.mk.injEq] at h
      obtain ⟨hh1, hh2, hh3⟩ := h
      have e1 := splitFirst_eq a cs pre1 rest1 h1
      have e2 := splitFirst_eq b rest1 c2 post2 h2
      rw [← hh1, ← hh2, ← hh3, e1, e2]

theorem findRegion_shrink (a b : List Char) (ha : a ≠ []) :
    ∀ (cs pre c post : List Char),
    findRegion a b cs = some (pre, c, post) → post.length < cs.length := by
  intro cs pre c post h
  rw [findRegion_eq a b cs pre c post h]
  simp
  cases a with
  | nil => exact absurd rfl ha
  | cons x xs => simp; omega

theorem subAllFuel_congr (find : List Char → Option (List Char × List Char × List Char))
    (repl : List Char)
    (hsh : ∀ cs pre c post, find cs = some (pre, c, post) → post.length < cs.length) :
    ∀ (n m : Nat) (cs : List Char), cs.length < n → cs.length < m →
      subAllFuel find repl n cs = subAllFuel find repl m cs := by
  intro n
  induction n with
  | zero => intro m cs h1 h2; omega
  | succ n ih =>
    intro m cs h1 h2
    cases m with
    | zero => omega
    | succ m =>
      simp only [subAllFuel]
      cases hf : find cs with
      | none => rfl
      | some t =>
        obtain ⟨pre, c, post⟩ := t
        have hlt := hsh cs pre c post hf
        dsimp only
        rw [ih m post (by omega) (by omega)]

theorem subAll_none (find : List Char → Option (List Char × List Char × List Char))
    (repl cs : List Char) (h : find cs = none) : subAll find repl cs = cs := by
  unfold subAll
  simp only [subAllFuel, h]

theorem subAll_some (find : List Char → Option (List Char × List Char × List Char))
    (repl : List Char)
    (hsh : ∀ cs pre c post, find cs = some (pre, c, post) → post.length < cs.length)
    (cs pre c post : List Char) (h : find cs = some (pre, c, post)) :
    subAll find repl cs = pre ++ repl ++ subAll find repl post := by
  have hlt := hsh cs pre c post h
  have e1 : subAll find repl cs = pre ++ repl ++ subAllFuel find repl cs.length post := by
    unfold subAll
    simp only [subAllFuel, h]
  rw [e1,
    subAllFuel_congr find repl hsh cs.length (post.length + 1) post (by omega) (by omega)]
  rfl

theorem getLast?_mem_of (l : List Char) (x : Char) (h : l.getLast? = some x) : x ∈ l := by
  induction l with
  | nil => simp at h
  | cons a tl ih =>
    cases tl with
    | nil =>
      simp [List.getLast?] at h
      simp [h]
    | cons b tl2 =>
      rw [List.getLast?_cons_cons] at h
      simp [ih h]

/-- c7: for any document in which a named anchor is missing, extraction
records that region as absent (no error), substituting an adaptation value
for the absent region leaves the document unchanged, and every other region
extraction (present or absent) is untouched; each field of extract_sections
is computed independently. -/
theorem c7_thm : ∀ (doc v : List Char) (r : Region),
    extractRegion r doc = none →
    subRegion r v doc = doc ∧
      (∀ r2 : Region, extractRegion r2 (subRegion r v doc) = extractRegion r2 doc) ∧
      extract_sections doc =
        { tagline := extractRegion Region.tagline doc
          highlightbar := extractRegion Region.highlightbar doc
          mainbar := extractRegion Region.mainbar doc
          experiences := extractRegion Region.experiences doc
          general_skills := extractRegion Region.general_skills doc } := by
  intro doc v r h
  have hid : subRegion r v doc = doc := by
    cases r with
    | tagline =>
      have hf : findTagline doc = none := by
        cases hf : findTagline doc with
        | none => rfl
        | some t => simp [extractRegion, extractTagline, hf] at h
      exact subAll_none _ _ doc hf
    | highlightbar =>
      have hf : findRegion hbA hbB doc = none := by
        cases hf : findRegion hbA hbB doc with
        | none => rfl
        | some t => simp [extractRegion, extractRegionG, hf] at h
      exact subAll_none _ _ doc hf
    | mainbar =>
      have hf : findRegion mbA mbB doc = none := by
        cases hf : findRegion mbA mbB doc with
        | none => rfl
        | some t => simp [extractRegion, extractRegionG, hf] at h
      exact subAll_none _ _ doc hf
    | experiences =>
      have hf : findRegion expA expB doc = none := by
        cases hf : findRegion expA expB doc with
        | none => rfl
        | some t => simp [extractRegion, extractRegionG, hf] at h
      exact subAll_none _ _ doc hf
    | general_skills =>
      have hf : findRegion gsA gsB doc = none := by
        cases hf : findRegion gsA gsB doc with
        | none => rfl
        | some t => simp [extractRegion, extractRegionG, hf] at h
      exact subAll_none _ _ doc hf
  exact ⟨hid, fun r2 => by rw [hid], rfl⟩

def doc7 : List Char := mbA ++ ('Y' :: []) ++ mbB

/-- c7 witness: c7_thm on a concrete document that has a mainbar region but
no tagline anchor. -/
theorem c7_witness :
    subRegion Region.tagline ('Z' :: []) doc7 = doc7 ∧
      (∀ r2 : Region, extractRegion r2 (subRegion Region.tagline ('Z' :: []) doc7) =
        extractRegion r2 doc7) ∧
      extract_sections doc7 =
        { tagline := extractRegion Region.tagline doc7
          highlightbar := extractRegion Region.highlightbar doc7
          mainbar := extractRegion Region.mainbar doc7
          experiences := extractRegion Region.experiences doc7
          general_skills := extractRegion Region.general_skills doc7 } :=
  c7_thm doc7 ('Z' :: []) Region.tagline (by decide)

def hbDoc : List Char := hbA ++ hbB

/-- c8 counterexample: a highlightbar region that is present but empty is
extracted as some empty string (distinct from none), yet sections_to_dict
renders the whole section set identically to a document where the region is
absent: the present-but-empty region is conflated with "not found" when the
contents are converted for prompt construction. -/
theorem c8_counterexample :
    (extract_sections hbDoc).highlightbar = some [] ∧
    (extract_sections []).highlightbar = none ∧
    sections_to_dict (extract_sections hbDoc) = sections_to_dict (extract_sections []) := by
  refine ⟨by decide, by decide, by decide⟩

/-- c8 (amended): CVSections itself keeps a present-but-empty region distinct
from an absent one (some "" is not none, and extraction can produce some ""),
but sections_to_dict, used for prompt construction, maps both the empty
string and the absent value to the same placeholder, conflating them. -/
theorem c8_amended :
    (∀ s : CVSections, sections_to_dict { s with highlightbar := some [] } =
        sections_to_dict { s with highlightbar := none }) ∧
    (some ([] : List Char) ≠ (none : Option (List Char))) ∧
    (extract_sections hbDoc).highlightbar = some [] := by
  refine ⟨?_, by simp, by decide⟩
  intro s
  simp [sections_to_dict, orNA]

/-- c1 counterexample: with replacement text "a}b" (its trim is itself) on the
document backslash-tagline-open-brace Old close-brace, substituting and then
re-extracting the tagline region yields only "a", not the replacement text:
the round trip of the claim fails for replacement text containing a close
brace. -/
theorem c1_counterexample :
    pyStrip ('a' :: rbC :: 'b' :: []) = 'a' :: rbC :: 'b' :: [] ∧
    extractTagline (taglineBranch ('a' :: rbC :: 'b' :: [])
        (tagAnchor ++ (('O' :: 'l' :: 'd' :: []) ++ rbC :: []))) = some ('a' :: []) ∧
    ('a' :: [] : List Char) ≠ 'a' :: rbC :: 'b' :: [] := by
  refine ⟨by decide, by decide, by decide⟩

/-- c1 (amended): for the tagline region of LaTeXWriter.apply_adaptations,
when the trimmed replacement text is nonempty and contains no close brace and
the tagline anchor occurs only at the region, substitution inserts the
trimmed replacement verbatim (backslashes and back-reference-like sequences
included, never reinterpreted as a pattern), re-extracting the region yields
exactly the trimmed replacement, and the document before the region and the
anchors themselves are byte-identical to the original. -/
theorem c1_amended (pre c post R : List Char)
    (hpre : occursB tagAnchor (pre ++ tagInit) = false)
    (hc : c ≠ []) (hcb : rbC ∉ c)
    (hpost : occursB tagAnchor post = false)
    (hR : pyStrip R ≠ []) (hRb : rbC ∉ pyStrip R) :
    taglineBranch R (pre ++ (tagAnchor ++ (c ++ rbC :: post))) =
      pre ++ (tagAnchor ++ (pyStrip R ++ rbC :: post)) ∧
    extractTagline (taglineBranch R (pre ++ (tagAnchor ++ (c ++ rbC :: post)))) =
      some (pyStrip R) := by
  have hwrap : removeTagWrapper (pyStrip R) = pyStrip R := by
    unfold removeTagWrapper
    rw [if_neg]
    rintro ⟨h1, h2, h3⟩
    exact hRb (getLast?_mem_of _ _ h2)
  have hmain : taglineBranch R (pre ++ (tagAnchor ++ (c ++ rbC :: post))) =
      pre ++ (tagAnchor ++ (pyStrip R ++ rbC :: post)) := by
    unfold taglineBranch
    rw [hwrap]
    rw [subAll_some findTagline (mkTagRepl (pyStrip R)) findTagline_shrink _ _ _ _
      (findTagline_at pre c post hpre hc hcb)]
    rw [subAll_none _ _ post (findTagline_none post hpost)]
    simp [mkTagRepl, List.append_assoc]
  refine ⟨hmain, ?_⟩
  rw [hmain]
  unfold extractTagline
  rw [findTagline_at pre (pyStrip R) post hpre hR hRb]
  rfl

def preW : List Char := 'x' :: ' ' :: []

def cW : List Char := 'O' :: 'l' :: 'd' :: []

def postW : List Char := ' ' :: 'y' :: []

def rW : List Char := ' ' :: bsC :: '1' :: ' ' :: []

/-- c1 witness: c1_amended at a concrete document, with a replacement whose
text contains a backslash and a back-reference-like sequence. -/
theorem c1_amended_witness :
    taglineBranch rW (preW ++ (tagAnchor ++ (cW ++ rbC :: postW))) =
      preW ++ (tagAnchor ++ (pyStrip rW ++ rbC :: postW)) ∧
    extractTagline (taglineBranch rW (preW ++ (tagAnchor ++ (cW ++ rbC :: postW)))) =
      some (pyStrip rW) :=
  c1_amended preW cW postW rW (by decide) (by decide) (by decide) (by decide)
    (by decide) (by decide)

/-- c9 counterexample: on a document with two occurrences of the tagline
anchor pair, the substitution of apply_adaptations (re.sub) replaces both
occurrences; the later occurrence is not left byte-for-byte unchanged as the
claim demands. -/
theorem c9_counterexample :
    taglineBranch ('X' :: [])
        (tagAnchor ++ ('A' :: rbC :: 'x' :: []) ++ (tagAnchor ++ ('B' :: rbC :: []))) =
      tagAnchor ++ ('X' :: rbC :: 'x' :: []) ++ (tagAnchor ++ ('X' :: rbC :: [])) ∧
    tagAnchor ++ ('X' :: rbC :: 'x' :: []) ++ (tagAnchor ++ ('X' :: rbC :: [])) ≠
      tagAnchor ++ ('X' :: rbC :: 'x' :: []) ++ (tagAnchor ++ ('B' :: rbC :: [])) := by
  refine ⟨by decide, by decide⟩

/-- c9 (amended): substitution rewrites EVERY non-overlapping occurrence of
the region anchor pair, scanning left to right: on a document with two
tagline occurrences (under the stated side conditions), both interiors are
replaced by the trimmed adaptation value, with the anchors and the
surrounding text preserved. -/
theorem c9_amended (pre mid post s1 s2 R : List Char)
    (hpre : occursB tagAnchor (pre ++ tagInit) = false)
    (hmid : occursB tagAnchor (mid ++ tagInit) = false)
    (hpost : occursB tagAnchor post = false)
    (hs1 : s1 ≠ []) (hs1b : rbC ∉ s1) (hs2 : s2 ≠ []) (hs2b : rbC ∉ s2)
    (hRb : rbC ∉ pyStrip R) :
    taglineBranch R
        (pre ++ (tagAnchor ++ (s1 ++ rbC :: (mid ++ (tagAnchor ++ (s2 ++ rbC :: post)))))) =
      pre ++ (tagAnchor ++ (pyStrip R ++ rbC ::
        (mid ++ (tagAnchor ++ (pyStrip R ++ rbC :: post))))) := by
  have hwrap : removeTagWrapper (pyStrip R) = pyStrip R := by
    unfold removeTagWrapper
    rw [if_neg]
    rintro ⟨h1, h2, h3⟩
    exact hRb (getLast?_mem_of _ _ h2)
  unfold taglineBranch
  rw [hwrap]
  rw [subAll_some findTagline (mkTagRepl (pyStrip R)) findTagline_shrink _ _ _ _
    (findTagline_at pre s1 (mid ++ (tagAnchor ++ (s2 ++ rbC :: post))) hpre hs1 hs1b)]
  rw [subAll_some findTagline (mkTagRepl (pyStrip R)) findTagline_shrink _ _ _ _
    (findTagline_at mid s2 post hmid hs2 hs2b)]
  rw [subAll_none _ _ post (findTagline_none post hpost)]
  simp [mkTagRepl, List.append_assoc]

def midW : List Char := 'm' :: []

def s2W : List Char := 'B' :: []

/-- c9 witness: c9_amended at a concrete two-occurrence document. -/
theorem c9_amended_witness :
    taglineBranch rW
        (preW ++ (tagAnchor ++ (cW ++ rbC :: (midW ++ (tagAnchor ++ (s2W ++ rbC :: postW)))))) =
      preW ++ (tagAnchor ++ (pyStrip rW ++ rbC ::
        (midW ++ (tagAnchor ++ (pyStrip rW ++ rbC :: postW))))) :=
  c9_amended preW midW postW cW s2W rW (by decide) (by decide) (by decide) (by decide)
    (by decide) (by decide) (by decide) (by decide)

/-! ## Structured-data (JSON) decode, modelling json.loads (strict mode),
and the repair pass of GeminiAdapter._fix_json_escaping -/

def digitC (c : Char) : Bool := 48 ≤ c.toNat && c.toNat ≤ 57

def numChar (c : Char) : Bool :=
  digitC c || c = '-' || c = '+' || c = '.' || c = 'e' || c = 'E'

def digitsOnly (t : List Char) : Bool := !t.isEmpty && (t.dropWhile digitC).isEmpty

def expPart : List Char → Bool
| [] => true
| c :: t =>
  (c = 'e' || c = 'E') &&
    (match t with
     | s :: u => if s = '+' || s = '-' then digitsOnly u else digitsOnly t
     | [] => false)

def fracExpPart : List Char → Bool
| [] => true
| c :: t =>
  if c = '.' then !(t.takeWhile digitC).isEmpty && expPart (t.dropWhile digitC)
  else expPart (c :: t)

def intFrac : List Char → Bool
| [] => false
| '0' :: t => fracExpPart t
| c :: t => digitC c && fracExpPart (t.dropWhile digitC)

def numShape : List Char → Bool
| '-' :: r1 => intFrac r1
| r1 => intFrac r1

/-- lexNumber: the number token of the decoder, by maximal munch over number
characters followed by a shape check (same accepted set as the decoder
regular expression for a complete token). -/
def lexNumber (cs : List Char) : Option (List Char × List Char) :=
  if !(cs.takeWhile numChar).isEmpty && numShape (cs.takeWhile numChar) then
    some (cs.takeWhile numChar, cs.dropWhile numChar)
  else none

def simpleEsc (c : Char) : Bool :=
  c = qC || c = bsC || c = '/' || c = 'b' || c = 'f' || c = 'n' || c = 'r' || c = 't'

def escCharJ (c : Char) : Char :=
  if c = 'b' then '\x08' else if c = 'f' then '\x0c'
  else if c = 'n' then '\n' else if c = 'r' then '\r' else if c = 't' then '\t' else c

def hexDigitC (c : Char) : Bool :=
  (48 ≤ c.toNat && c.toNat ≤ 57) || (97 ≤ c.toNat && c.toNat ≤ 102) ||
    (65 ≤ c.toNat && c.toNat ≤ 70)

def hexVal (c : Char) : Nat :=
  if 48 ≤ c.toNat && c.toNat ≤ 57 then c.toNat - 48
  else if 97 ≤ c.toNat && c.toNat ≤ 102 then c.toNat - 87
  else c.toNat - 55

def uCharJ (a b c d : Char) : Char :=
  Char.ofNat (4096 * hexVal a + 256 * hexVal b + 16 * hexVal c + hexVal d)

/-- lexU: a four-hex-digit unicode escape tail (after the backslash-u). -/
def lexU : List Char → Option (Char × List Char)
| x1 :: x2 :: x3 :: x4 :: rest3 =>
  if hexDigitC x1 && hexDigitC x2 && hexDigitC x3 && hexDigitC x4 then
    some (uCharJ x1 x2 x3 x4, rest3)
  else none
| _ => none

mutual

/-- lexStringBody: the string token after the opening quote, strict mode: raw
control characters are rejected, escapes are the eight simple ones plus
four-hex-digit unicode escapes; returns the decoded content and the rest
after the closing quote.  Fueled: each step consumes at least one character,
so fuel greater than the length never runs out. -/
def lexStringBody : Nat → List Char → Option (List Char × List Char)
| 0, _ => none
| _ + 1, [] => none
| n + 1, c :: rest =>
  if c = qC then some ([], rest)
  else if c = bsC then lexAfterBs n rest
  else if c.toNat < 32 then none
  else
    match lexStringBody n rest with
    | some (s, r) => some (c :: s, r)
    | none => none

/-- lexAfterBs: the remainder of a string token just after an escape
backslash. -/
def lexAfterBs : Nat → List Char → Option (List Char × List Char)
| 0, _ => none
| _ + 1, [] => none
| n + 1, e :: rest2 =>
  if e = 'u' then
    match lexU rest2 with
    | some (ch, rest3) =>
      (match lexStringBody n rest3 with
       | some (s, r) => some (ch :: s, r)
       | none => none)
    | none => none
  else if simpleEsc e then
    match lexStringBody n rest2 with
    | some (s, r) => some (escCharJ e :: s, r)
    | none => none
  else none

end

inductive JTok : Type
| lbraceT | rbraceT | lbrackT | rbrackT | colonT | commaT | trueT | falseT | nullT
| strT : List Char → JTok
| numT : List Char → JTok
deriving DecidableEq, Repr

def wsJ (c : Char) : Bool := c = ' ' || c = '\t' || c = '\n' || c = '\r'

def tokenizeAux : Nat → List Char → Option (List JTok)
| 0, _ => none
| _ + 1, [] => some []
| n + 1, c :: rest =>
  if wsJ c then tokenizeAux n rest
  else if c = lbC then (tokenizeAux n rest).map (fun ts => JTok.lbraceT :: ts)
  else if c = rbC then (tokenizeAux n rest).map (fun ts => JTok.rbraceT :: ts)
  else if c = '[' then (tokenizeAux n rest).map (fun ts => JTok.lbrackT :: ts)
  else if c = ']' then (tokenizeAux n rest).map (fun ts => JTok.rbrackT :: ts)
  else if c = ':' then (tokenizeAux n rest).map (fun ts => JTok.colonT :: ts)
  else if c = ',' then (tokenizeAux n rest).map (fun ts => JTok.commaT :: ts)
  else if c = qC then
    match lexStringBody (rest.length + 1) rest with
    | some (s, rest2) => (tokenizeAux n rest2).map (fun ts => JTok.strT s :: ts)
    | none => none
  else if startsWith ("true").data (c :: rest) then
    (tokenizeAux n ((c :: rest).drop 4)).map (fun ts => JTok.trueT :: ts)
  else if startsWith ("false").data (c :: rest) then
    (tokenizeAux n ((c :: rest).drop 5)).map (fun ts => JTok.falseT :: ts)
  else if startsWith ("null").data (c :: rest) then
    (tokenizeAux n ((c :: rest).drop 4)).map (fun ts => JTok.nullT :: ts)
  else if startsWith ("NaN").data (c :: rest) then
    (tokenizeAux n ((c :: rest).drop 3)).map (fun ts => JTok.numT ("NaN").data :: ts)
  else if startsWith ("Infinity").data (c :: rest) then
    (tokenizeAux n ((c :: rest).drop 8)).map (fun ts => JTok.numT ("Infinity").data :: ts)
  else if startsWith ("-Infinity").data (c :: rest) then
    (tokenizeAux n ((c :: rest).drop 9)).map (fun ts => JTok.numT ("-Infinity").data :: ts)
  else
    match lexNumber (c :: rest) with
    | some (raw, rest2) => (tokenizeAux n rest2).map (fun ts => JTok.numT raw :: ts)
    | none => none

def tokenize (cs : List Char) : Option (List JTok) := tokenizeAux (cs.length + 1) cs

inductive JValue : Type
| obj : List (List Char × JValue) → JValue
| arr : List JValue → JValue
| str : List Char → JValue
| num : List Char → JValue
| bool : Bool → JValue
| null : JValue

mutual

def parseVal : Nat → List JTok → Option (JValue × List JTok)
| 0, _ => none
| n + 1, ts =>
  match ts with
  | JTok.strT s :: r => some (JValue.str s, r)
  | JTok.numT s :: r => some (JValue.num s, r)
  | JTok.trueT :: r => some (JValue.bool true, r)
  | JTok.falseT :: r => some (JValue.bool false, r)
  | JTok.nullT :: r => some (JValue.null, r)
  | JTok.lbrackT :: JTok.rbrackT :: r => some (JValue.arr [], r)
  | JTok.lbrackT :: r =>
    (match parseElems n r with
     | some (vs, rest) => some (JValue.arr vs, rest)
     | none => none)
  | JTok.lbraceT :: JTok.rbraceT :: r => some (JValue.obj [], r)
  | JTok.lbraceT :: r =>
    (match parseMembers n r with
     | some (ms, rest) => some (JValue.obj ms, rest)
     | none => none)
  | _ => none

def parseElems : Nat → List JTok → Option (List JValue × List JTok)
| 0, _ => none
| n + 1, ts =>
  match parseVal n ts with
  | none => none
  | some (v, rest) =>
    match rest with
    | JTok.commaT :: r2 =>
      (match parseElems n r2 with
       | some (vs, rr) => some (v :: vs, rr)
       | none => none)
    | JTok.rbrackT :: r2 => some ([v], r2)
    | _ => none

def parseMembers : Nat → List JTok → Option (List (List Char × JValue) × List JTok)
| 0, _ => none
| n + 1, ts =>
  match ts with
  | JTok.strT k :: JTok.colonT :: r =>
    (match parseVal n r with
     | none => none
     | some (v, rest) =>
       match rest with
       | JTok.commaT :: r2 =>
         (match parseMembers n r2 with
          | some (ms, rr) => some ((k, v) :: ms, rr)
          | none => none)
       | JTok.rbraceT :: r2 => some ([(k, v)], r2)
       | _ => none)
  | _ => none

end

/-- jsonParse: the structured decode (json.loads): tokenize, parse one value,
require the whole input consumed. -/
def jsonParse (cs : List Char) : Option JValue :=
  match tokenize cs with
  | none => none
  | some ts =>
    match parseVal (2 * ts.length + 2) ts with
    | some (v, []) => some v
    | _ => none

/-- step1Aux: pass 1 of _fix_json_escaping: walk the characters with an
in-string flag (toggled by a quote) and a one-step escape flag; inside a
string a raw newline, carriage return or tab is rewritten to its two-character
escape form. -/
def step1Aux : Bool → Bool → List Char → List Char
| _, _, [] => []
| inS, true, c :: rest => c :: step1Aux inS false rest
| inS, false, c :: rest =>
  if c = bsC then c :: step1Aux inS true rest
  else if c = qC then c :: step1Aux (!inS) false rest
  else if inS then
    (if c = '\n' then bsC :: 'n' :: []
     else if c = '\r' then bsC :: 'r' :: []
     else if c = '\t' then bsC :: 't' :: []
     else c :: []) ++ step1Aux inS false rest
  else c :: step1Aux inS false rest

def SENT : List Char := nulC :: ("ESCAPED_BACKSLASH").data ++ [nulC]

/-- protect: str.replace of a doubled backslash by the sentinel, left to
right, non-overlapping (on a miss the scan advances one character). -/
def protect : List Char → List Char
| [] => []
| c :: rest =>
  if c = bsC then
    match rest with
    | [] => [c]
    | c2 :: rest2 =>
      if c2 = bsC then SENT ++ protect rest2 else c :: protect (c2 :: rest2)
  else c :: protect rest

def okAfterBs (c : Char) : Bool :=
  c = 'n' || c = 'r' || c = 't' || c = 'b' || c = 'f' || c = 'u' || c = qC || c = bsC ||
    c = '/' || c = nulC

/-- reescape: the substitution doubling every backslash not followed by a
recognized escape letter (negative lookahead, zero width: scanning resumes at
the following character). -/
def reescape : List Char → List Char
| [] => []
| c :: rest =>
  if c = bsC then
    match rest with
    | [] => bsC :: bsC :: []
    | c2 :: _ => if okAfterBs c2 then bsC :: reescape rest else bsC :: bsC :: reescape rest
  else c :: reescape rest

def restoreFuel : Nat → List Char → List Char
| 0, cs => cs
| _ + 1, [] => []
| n + 1, c :: rest =>
  if startsWith SENT (c :: rest) then
    bsC :: bsC :: restoreFuel n ((c :: rest).drop SENT.length)
  else c :: restoreFuel n rest

/-- restore: str.replace of the sentinel back to a doubled backslash. -/
def restore (cs : List Char) : List Char := restoreFuel cs.length cs

/-- fixJsonEscaping: _fix_json_escaping: control-character normalization, then
protect doubled backslashes, double the remaining bare backslashes, restore. -/
def fixJsonEscaping (cs : List Char) : List Char :=
  restore (reescape (protect (step1Aux false false cs)))

/-- goodRuns: the lexical well-formedness the repair passes respect: no NUL
anywhere, and every backslash starts either a doubled backslash or an escape
whose next character is a recognized escape letter. -/
def goodRuns : List Char → Bool
| [] => true
| c :: rest =>
  if c = bsC then
    match rest with
    | [] => false
    | c2 :: rest2 =>
      if c2 = bsC then goodRuns rest2
      else (okAfterBs c2 && !(c2 = nulC)) && goodRuns (c2 :: rest2)
  else !(c = nulC) && goodRuns rest

/-! ## Fence stripping and the decode protocol (GeminiAdapter._parse_response) -/

def wsRe (c : Char) : Bool :=
  c = ' ' || c = '\t' || c = '\n' || c = '\r' || c = '\x0b' || c = '\x0c'

def fence3 : List Char := ("```").data

def jsonWord : List Char := ("json").data

def fenceCloseOk (cs : List Char) : Bool := startsWith fence3 (cs.dropWhile wsRe)

/-- lazyCloseScan: the lazy group body: the shortest stretch up to a close
brace that is followed by optional whitespace and a closing fence. -/
def lazyCloseScan : List Char → Option (List Char × List Char)
| [] => none
| c :: rest =>
  if c = rbC && fenceCloseOk rest then some ([], rest)
  else
    match lazyCloseScan rest with
    | some (mid, rr) => some (c :: mid, rr)
    | none => none

/-- fenceMatchAt cs: the fenced-block pattern matched at the start of cs:
three backticks, an optional json word, optional whitespace, then the lazy
brace-delimited group; returns the captured group. -/
def fenceMatchAt (cs : List Char) : Option (List Char) :=
  if startsWith fence3 cs then
    (match (if startsWith jsonWord (cs.drop 3) then (cs.drop 3).drop 4
            else cs.drop 3).dropWhile wsRe with
     | c :: body =>
       if c = lbC then
         match lazyCloseScan body with
         | some (mid, _) => some (lbC :: (mid ++ [rbC]))
         | none => none
       else none
     | [] => none)
  else none

def stripFenceAux : List Char → Option (List Char)
| [] => none
| c :: rest =>
  match fenceMatchAt (c :: rest) with
  | some g => some g
  | none => stripFenceAux rest

/-- stripFence: if the fence pattern occurs (earliest start), the text is
replaced by the captured group, otherwise kept unchanged. -/
def stripFence (cs : List Char) : List Char :=
  match stripFenceAux cs with
  | some g => g
  | none => cs

/-- parse_response: strip an optional fence, attempt the decode; on failure
apply the repair pass once and re-attempt; error iff both decodes fail. -/
def parse_response (cs : List Char) : Except Unit JValue :=
  match jsonParse (stripFence cs) with
  | some v => Except.ok v
  | none =>
    match jsonParse (fixJsonEscaping (stripFence cs)) with
    | some v => Except.ok v
    | none => Except.error ()

/-! ## The repair pass is the identity on lexically well-formed text -/

theorem SENT_no_bs : ∀ c ∈ SENT, c ≠ bsC := by decide

theorem SENT_len : SENT.length = 19 := by decide

theorem startsWith_SENT_cons_false (c : Char) (rest : List Char) (hc : c ≠ nulC) :
    startsWith SENT (c :: rest) = false := by
  have hs : SENT = nulC :: (("ESCAPED_BACKSLASH").data ++ [nulC]) := rfl
  rw [hs]
  simp only [startsWith]
  rw [decide_eq_false (fun h => hc h.symm)]
  simp

theorem reescape_append_nobs (xs ys : List Char) (hx : ∀ c ∈ xs, c ≠ bsC) :
    reescape (xs ++ ys) = xs ++ reescape ys := by
  induction xs with
  | nil => rfl
  | cons a tl ih =>
    have ha : a ≠ bsC := hx a (by simp)
    have htl : ∀ c ∈ tl, c ≠ bsC := fun c hc => hx c (by simp [hc])
    rw [List.cons_append]
    rw [show reescape (a :: (tl ++ ys)) = a :: reescape (tl ++ ys) from by
      simp [reescape, ha]]
    rw [ih htl]
    rfl

theorem restoreFuel_congr : ∀ (n m : Nat) (cs : List Char), cs.length ≤ n → cs.length ≤ m →
    restoreFuel n cs = restoreFuel m cs := by
  intro n
  induction n with
  | zero =>
    intro m cs h1 _
    have hz : cs = [] := List.length_eq_zero.mp (by omega)
    subst hz
    cases m <;> rfl
  | succ n ih =>
    intro m cs h1 h2
    cases cs with
    | nil => cases m <;> rfl
    | cons c rest =>
      cases m with
      | zero => simp at h2
      | succ m =>
        simp only [restoreFuel]
        split
        · rw [ih m ((c :: rest).drop SENT.length) ?_ ?_]
          · simp only [List.length_drop, SENT_len, List.length_cons]
            simp only [List.length_cons] at h1
            omega
          · simp only [List.length_drop, SENT_len, List.length_cons]
            simp only [List.length_cons] at h2
            omega
        · rw [ih m rest (by simp at h1; omega) (by simp at h2; omega)]

theorem restore_eq_sent (cs : List Char) (h : startsWith SENT cs = true) :
    restore cs = bsC :: bsC :: restore (cs.drop SENT.length) := by
  cases cs with
  | nil => exact absurd h (by decide)
  | cons c rest =>
    unfold restore
    simp only [restoreFuel]
    rw [if_pos h]
    rw [restoreFuel_congr rest.length ((c :: rest).drop SENT.length).length
      ((c :: rest).drop SENT.length)
      (by simp only [List.length_drop, SENT_len, List.length_cons]; omega) (le_refl _)]

theorem restore_eq_cons (c : Char) (rest : List Char)
    (h : startsWith SENT (c :: rest) = false) :
    restore (c :: rest) = c :: restore rest := by
  unfold restore
  simp only [restoreFuel]
  have hcond : ¬ (startsWith SENT (c :: rest) = true) := by simp [h]
  rw [if_neg hcond]

theorem protect_bs_cons (c2 : Char) (rest2 : List Char) :
    protect (bsC :: c2 :: rest2) =
      (if c2 = bsC then SENT ++ protect rest2 else bsC :: protect (c2 :: rest2)) := rfl

theorem protect_cons_ne (c : Char) (rest : List Char) (hc : c ≠ bsC) :
    protect (c :: rest) = c :: protect rest := by
  cases rest with
  | nil => simp [protect, hc]
  | cons c2 rest2 => simp [protect, hc]

theorem reescape_bs_cons (c2 : Char) (rest2 : List Char) :
    reescape (bsC :: c2 :: rest2) =
      (if okAfterBs c2 = true then bsC :: reescape (c2 :: rest2)
       else bsC :: bsC :: reescape (c2 :: rest2)) := rfl

theorem reescape_cons_ne (c : Char) (rest : List Char) (hc : c ≠ bsC) :
    reescape (c :: rest) = c :: reescape rest := by
  cases rest with
  | nil => simp [reescape, hc]
  | cons c2 rest2 => simp [reescape, hc]

theorem goodRuns_bs_cons (c2 : Char) (rest2 : List Char) :
    goodRuns (bsC :: c2 :: rest2) =
      (if c2 = bsC then goodRuns rest2
       else (okAfterBs c2 && !(c2 = nulC)) && goodRuns (c2 :: rest2)) := rfl

theorem goodRuns_cons_ne (c : Char) (rest : List Char) (hc : c ≠ bsC) :
    goodRuns (c :: rest) = (!(c = nulC) && goodRuns rest) := by
  cases rest with
  | nil => simp [goodRuns, hc]
  | cons c2 rest2 => simp [goodRuns, hc]

theorem protect_ne_nil (x : Char) (xs : List Char) : protect (x :: xs) ≠ [] := by
  by_cases hx : x = bsC
  · subst hx
    cases xs with
    | nil => simp [protect]
    | cons c2 rest2 =>
      rw [protect_bs_cons]
      split
      · simp [SENT]
      · simp
  · rw [protect_cons_ne x xs hx]
    simp

theorem step2_id : ∀ (n : Nat) (cs : List Char), cs.length ≤ n → goodRuns cs = true →
    restore (reescape (protect cs)) = cs := by
  intro n
  induction n with
  | zero =>
    intro cs h1 _
    have hz : cs = [] := List.length_eq_zero.mp (by omega)
    subst hz
    rfl
  | succ n ih =>
    intro cs h1 h2
    cases cs with
    | nil => rfl
    | cons c rest =>
      by_cases hc : c = bsC
      · subst hc
        cases rest with
        | nil => simp [goodRuns] at h2
        | cons c2 rest2 =>
          rw [goodRuns_bs_cons] at h2
          by_cases hc2 : c2 = bsC
          · rw [if_pos hc2] at h2
            subst hc2
            rw [protect_bs_cons, if_pos rfl]
            rw [reescape_append_nobs SENT _ SENT_no_bs]
            rw [restore_eq_sent _ (startsWith_self_append SENT _)]
            rw [show (SENT ++ reescape (protect rest2)).drop SENT.length =
              reescape (protect rest2) from append_drop_length _ _]
            rw [ih rest2 (by simp at h1; omega) h2]
          · rw [if_neg hc2] at h2
            simp only [Bool.and_eq_true, Bool.not_eq_true'] at h2
            obtain ⟨⟨hok, hnul⟩, hg⟩ := h2
            have hnul2 : c2 ≠ nulC := by
              intro he
              rw [he] at hnul
              simp at hnul
            rw [protect_bs_cons, if_neg hc2]
            rw [protect_cons_ne c2 rest2 hc2]
            have hre : reescape (bsC :: c2 :: protect rest2) =
                bsC :: reescape (c2 :: protect rest2) := by
              rw [reescape_bs_cons, if_pos hok]
            rw [hre]
            rw [restore_eq_cons bsC _ (startsWith_SENT_cons_false bsC _ (by decide))]
            rw [← protect_cons_ne c2 rest2 hc2]
            rw [ih (c2 :: rest2) (by simp at h1 ⊢; omega) hg]
      · rw [goodRuns_cons_ne c rest hc] at h2
        simp only [Bool.and_eq_true, Bool.not_eq_true'] at h2
        obtain ⟨hnul, hg⟩ := h2
        have hnul2 : c ≠ nulC := by
          intro he
          rw [he] at hnul
          simp at hnul
        rw [protect_cons_ne c rest hc]
        rw [reescape_cons_ne c _ hc]
        rw [restore_eq_cons c _ (startsWith_SENT_cons_false c _ hnul2)]
        rw [ih rest (by simp at h1; omega) hg]


theorem wsJ_facts (c : Char) (h : wsJ c = true) : c ≠ bsC ∧ c ≠ qC ∧ c ≠ nulC := by
  refine ⟨?_, ?_, ?_⟩ <;> intro he <;> subst he <;> revert h <;> decide

theorem hex_facts (c : Char) (h : hexDigitC c = true) :
    c ≠ bsC ∧ c ≠ qC ∧ c ≠ nulC ∧ c ≠ '\n' ∧ c ≠ '\r' ∧ c ≠ '\t' := by
  refine ⟨?_, ?_, ?_, ?_, ?_, ?_⟩ <;> intro he <;> subst he <;> revert h <;> decide

theorem numChar_facts (c : Char) (h : numChar c = true) :
    c ≠ bsC ∧ c ≠ qC ∧ c ≠ nulC := by
  refine ⟨?_, ?_, ?_⟩ <;> intro he <;> subst he <;> revert h <;> decide

theorem simpleEsc_ok (c : Char) (h : simpleEsc c = true) :
    okAfterBs c = true ∧ c ≠ nulC := by
  constructor
  · have h2 := h
    simp only [simpleEsc, Bool.or_eq_true, decide_eq_true_eq] at h2
    simp only [okAfterBs, Bool.or_eq_true, decide_eq_true_eq]
    tauto
  · intro he
    subst he
    revert h
    decide

theorem big_facts (c : Char) (h : ¬ c.toNat < 32) :
    c ≠ '\n' ∧ c ≠ '\r' ∧ c ≠ '\t' ∧ c ≠ nulC := by
  refine ⟨?_, ?_, ?_, ?_⟩ <;> intro he <;> subst he <;> exact h (by decide)

theorem step1_plain_append (xs ys : List Char) (hx : ∀ c ∈ xs, c ≠ bsC ∧ c ≠ qC) :
    step1Aux false false (xs ++ ys) = xs ++ step1Aux false false ys := by
  induction xs with
  | nil => rfl
  | cons a tl ih =>
    have ha := hx a (by simp)
    rw [List.cons_append]
    rw [show step1Aux false false (a :: (tl ++ ys)) = a :: step1Aux false false (tl ++ ys)
      from by simp [step1Aux, ha.1, ha.2]]
    rw [ih (fun c hc => hx c (by simp [hc]))]
    rfl

theorem goodRuns_plain_append (xs ys : List Char) (hx : ∀ c ∈ xs, c ≠ bsC ∧ c ≠ nulC) :
    goodRuns (xs ++ ys) = goodRuns ys := by
  induction xs with
  | nil => rfl
  | cons a tl ih =>
    have ha := hx a (by simp)
    rw [List.cons_append, goodRuns_cons_ne a _ ha.1]
    rw [ih (fun c hc => hx c (by simp [hc]))]
    simp [ha.2]

theorem step1_hex_cons (c : Char) (h : hexDigitC c = true) (rest : List Char) :
    step1Aux true false (c :: rest) = c :: step1Aux true false rest := by
  have hf := hex_facts c h
  simp [step1Aux, hf.1, hf.2.1, hf.2.2.2.1, hf.2.2.2.2.1, hf.2.2.2.2.2]

theorem goodRuns_hex_cons (c : Char) (h : hexDigitC c = true) (rest : List Char) :
    goodRuns (c :: rest) = goodRuns rest := by
  have hf := hex_facts c h
  rw [goodRuns_cons_ne c rest hf.1]
  simp [hf.2.2.1]

theorem lexU_eq (rest2 : List Char) (ch : Char) (rest3 : List Char)
    (h : lexU rest2 = some (ch, rest3)) :
    ∃ x1 x2 x3 x4, rest2 = x1 :: x2 :: x3 :: x4 :: rest3 ∧
      hexDigitC x1 = true ∧ hexDigitC x2 = true ∧ hexDigitC x3 = true ∧
      hexDigitC x4 = true := by
  cases rest2 with
  | nil => simp [lexU] at h
  | cons x1 r1 =>
    cases r1 with
    | nil => simp [lexU] at h
    | cons x2 r2 =>
      cases r2 with
      | nil => simp [lexU] at h
      | cons x3 r3 =>
        cases r3 with
        | nil => simp [lexU] at h
        | cons x4 rest3v =>
          simp only [lexU] at h
          split at h
          · rename_i hhex
            simp only [Option.some.injEq, Prod.mk.injEq] at h
            obtain ⟨h1, h2⟩ := h
            subst h2
            simp only [Bool.and_eq_true] at hhex
            exact ⟨x1, x2, x3, x4, rfl, hhex.1.1.1, hhex.1.1.2, hhex.1.2, hhex.2⟩
          · simp at h

theorem lexClean : ∀ (n : Nat),
    (∀ (rs dec rest2 : List Char), lexStringBody n rs = some (dec, rest2) →
      ∃ sp, rs = sp ++ rest2 ∧
        step1Aux true false rs = sp ++ step1Aux false false rest2 ∧
        (goodRuns rest2 = true → goodRuns rs = true)) ∧
    (∀ (rs dec rest2 : List Char), lexAfterBs n rs = some (dec, rest2) →
      ∃ sp, rs = sp ++ rest2 ∧
        step1Aux true true rs = sp ++ step1Aux false false rest2 ∧
        (goodRuns rest2 = true → goodRuns (bsC :: rs) = true)) := by
  intro n
  induction n with
  | zero =>
    constructor
    · intro rs dec rest2 h
      simp [lexStringBody] at h
    · intro rs dec rest2 h
      simp [lexAfterBs] at h
  | succ n ih =>
    constructor
    · intro rs dec rest2 h
      cases rs with
      | nil => simp [lexStringBody] at h
      | cons c rest =>
        simp only [lexStringBody] at h
        by_cases hq : c = qC
        · rw [if_pos hq] at h
          simp only [Option.some.injEq, Prod.mk.injEq] at h
          obtain ⟨_, h3⟩ := h
          subst hq
          refine ⟨[qC], by rw [h3]; simp, ?_, ?_⟩
          · rw [h3]
            simp [step1Aux, show qC ≠ bsC from by decide]
          · intro hg
            rw [goodRuns_cons_ne qC _ (by decide)]
            rw [h3]
            simp [hg, show qC ≠ nulC from by decide]
        · rw [if_neg hq] at h
          by_cases hb : c = bsC
          · rw [if_pos hb] at h
            obtain ⟨sp, he, hs, hg⟩ := ih.2 rest dec rest2 h
            subst hb
            refine ⟨bsC :: sp, by simp [he], ?_, ?_⟩
            · rw [show step1Aux true false (bsC :: rest) =
                bsC :: step1Aux true true rest from by simp [step1Aux]]
              rw [hs]
              rfl
            · intro hgr
              exact hg hgr
          · rw [if_neg hb] at h
            by_cases hctl : c.toNat < 32
            · rw [if_pos hctl] at h
              simp at h
            · rw [if_neg hctl] at h
              cases hrec : lexStringBody n rest with
              | none => rw [hrec] at h; simp at h
              | some pr =>
                obtain ⟨s1, r1v⟩ := pr
                rw [hrec] at h
                dsimp only at h
                simp only [Option.some.injEq, Prod.mk.injEq] at h
                obtain ⟨hdec, hr⟩ := h
                rw [hr] at hrec
                obtain ⟨sp1, he1, hs1, hg1⟩ := ih.1 rest s1 rest2 hrec
                have hbig := big_facts c hctl
                refine ⟨c :: sp1, by simp [he1], ?_, ?_⟩
                · rw [show step1Aux true false (c :: rest) = c :: step1Aux true false rest
                    from by simp [step1Aux, hb, hq, hbig.1, hbig.2.1, hbig.2.2.1]]
                  rw [hs1]
                  rfl
                · intro hg
                  rw [goodRuns_cons_ne c _ hb]
                  simp [hbig.2.2.2, hg1 hg]
    · intro rs dec rest2 h
      cases rs with
      | nil => simp [lexAfterBs] at h
      | cons e rest1 =>
        simp only [lexAfterBs] at h
        by_cases hu : e = 'u'
        · rw [if_pos hu] at h
          cases hlu : lexU rest1 with
          | none => rw [hlu] at h; simp at h
          | some pr =>
            obtain ⟨ch, rest3⟩ := pr
            rw [hlu] at h
            dsimp only at h
            cases hrec : lexStringBody n rest3 with
            | none => rw [hrec] at h; simp at h
            | some pr2 =>
              obtain ⟨s3, r3v⟩ := pr2
              rw [hrec] at h
              dsimp only at h
              simp only [Option.some.injEq, Prod.mk.injEq] at h
              obtain ⟨hdec, hr⟩ := h
              rw [hr] at hrec
              obtain ⟨x1, x2, x3, x4, hre, hx1, hx2, hx3, hx4⟩ := lexU_eq rest1 ch rest3 hlu
              obtain ⟨sp3, he3, hs3, hg3⟩ := ih.1 rest3 s3 rest2 hrec
              subst hu
              subst hre
              refine ⟨'u' :: x1 :: x2 :: x3 :: x4 :: sp3, by simp [he3], ?_, ?_⟩
              · rw [show step1Aux true true ('u' :: x1 :: x2 :: x3 :: x4 :: rest3) =
                    'u' :: step1Aux true false (x1 :: x2 :: x3 :: x4 :: rest3) from rfl]
                rw [step1_hex_cons x1 hx1, step1_hex_cons x2 hx2,
                  step1_hex_cons x3 hx3, step1_hex_cons x4 hx4, hs3]
                rfl
              · intro hg
                rw [goodRuns_bs_cons]
                rw [if_neg (by decide)]
                rw [goodRuns_cons_ne 'u' _ (by decide)]
                rw [goodRuns_hex_cons x1 hx1, goodRuns_hex_cons x2 hx2,
                  goodRuns_hex_cons x3 hx3, goodRuns_hex_cons x4 hx4]
                simp [hg3 hg, show okAfterBs 'u' = true from by decide,
                  show ¬ ('u' = nulC) from by decide]
        · rw [if_neg hu] at h
          by_cases hse : simpleEsc e
          · rw [if_pos hse] at h
            cases hrec : lexStringBody n rest1 with
            | none => rw [hrec] at h; simp at h
            | some pr =>
              obtain ⟨s1, r1v⟩ := pr
              rw [hrec] at h
              dsimp only at h
              simp only [Option.some.injEq, Prod.mk.injEq] at h
              obtain ⟨hdec, hr⟩ := h
              rw [hr] at hrec
              obtain ⟨sp1, he1, hs1, hg1⟩ := ih.1 rest1 s1 rest2 hrec
              refine ⟨e :: sp1, by simp [he1], ?_, ?_⟩
              · rw [show step1Aux true true (e :: rest1) =
                    e :: step1Aux true false rest1 from rfl]
                rw [hs1]
                rfl
              · intro hg
                have hok := simpleEsc_ok e hse
                rw [goodRuns_bs_cons]
                by_cases heb : e = bsC
                · subst heb
                  rw [if_pos rfl]
                  exact hg1 hg
                · rw [if_neg heb]
                  rw [goodRuns_cons_ne e _ heb]
                  simp [hok.1, hok.2, hg1 hg]
          · rw [if_neg hse] at h
            simp at h

theorem mem_takeWhile_pred (p : Char → Bool) (l : List Char) (a : Char)
    (h : a ∈ l.takeWhile p) : p a = true := by
  induction l with
  | nil => simp [List.takeWhile] at h
  | cons x xs ih =>
    rw [List.takeWhile_cons] at h
    by_cases hp : p x
    · rw [if_pos hp] at h
      rcases List.mem_cons.mp h with h1 | h1
      · subst h1; exact hp
      · exact ih h1
    · rw [if_neg hp] at h
      simp at h

theorem clean_cons_plain (c : Char) (rest : List Char)
    (hb : c ≠ bsC) (hq : c ≠ qC) (hn : c ≠ nulC)
    (h : step1Aux false false rest = rest ∧ goodRuns rest = true) :
    step1Aux false false (c :: rest) = c :: rest ∧ goodRuns (c :: rest) = true := by
  constructor
  · rw [show step1Aux false false (c :: rest) = c :: step1Aux false false rest from by
      simp [step1Aux, hb, hq]]
    rw [h.1]
  · rw [goodRuns_cons_ne c rest hb]
    simp [hn, h.2]

theorem clean_word_append (w rest1 : List Char)
    (hw : ∀ x ∈ w, x ≠ bsC ∧ x ≠ qC ∧ x ≠ nulC)
    (h : step1Aux false false rest1 = rest1 ∧ goodRuns rest1 = true) :
    step1Aux false false (w ++ rest1) = w ++ rest1 ∧ goodRuns (w ++ rest1) = true := by
  constructor
  · rw [step1_plain_append w rest1 (fun c hc => ⟨(hw c hc).1, (hw c hc).2.1⟩), h.1]
  · rw [goodRuns_plain_append w rest1 (fun c hc => ⟨(hw c hc).1, (hw c hc).2.2⟩), h.2]

theorem tokenizeAux_clean : ∀ (n : Nat) (cs : List Char) (ts : List JTok),
    tokenizeAux n cs = some ts →
    step1Aux false false cs = cs ∧ goodRuns cs = true := by
  intro n
  induction n with
  | zero => intro cs ts h; simp [tokenizeAux] at h
  | succ n ih =>
    intro cs ts h
    cases cs with
    | nil => exact ⟨rfl, rfl⟩
    | cons c rest =>
      simp only [tokenizeAux] at h
      by_cases h1 : wsJ c = true
      · rw [if_pos h1] at h
        have hf := wsJ_facts c h1
        exact clean_cons_plain c rest hf.1 hf.2.1 hf.2.2 (ih rest ts h)
      · rw [if_neg h1] at h
        by_cases h2 : c = lbC
        · rw [if_pos h2] at h
          obtain ⟨ts1, hts1, _⟩ := Option.map_eq_some'.mp h
          subst h2
          exact clean_cons_plain lbC rest (by decide) (by decide) (by decide)
            (ih rest ts1 hts1)
        · rw [if_neg h2] at h
          by_cases h3 : c = rbC
          · rw [if_pos h3] at h
            obtain ⟨ts1, hts1, _⟩ := Option.map_eq_some'.mp h
            subst h3
            exact clean_cons_plain rbC rest (by decide) (by decide) (by decide)
              (ih rest ts1 hts1)
          · rw [if_neg h3] at h
            by_cases h4 : c = '['
            · rw [if_pos h4] at h
              obtain ⟨ts1, hts1, _⟩ := Option.map_eq_some'.mp h
              subst h4
              exact clean_cons_plain '[' rest (by decide) (by decide) (by decide)
                (ih rest ts1 hts1)
            · rw [if_neg h4] at h
              by_cases h5 : c = ']'
              · rw [if_pos h5] at h
                obtain ⟨ts1, hts1, _⟩ := Option.map_eq_some'.mp h
                subst h5
                exact clean_cons_plain ']' rest (by decide) (by decide) (by decide)
                  (ih rest ts1 hts1)
              · rw [if_neg h5] at h
                by_cases h6 : c = ':'
                · rw [if_pos h6] at h
                  obtain ⟨ts1, hts1, _⟩ := Option.map_eq_some'.mp h
                  subst h6
                  exact clean_cons_plain ':' rest (by decide) (by decide) (by decide)
                    (ih rest ts1 hts1)
                · rw [if_neg h6] at h
                  by_cases h7 : c = ','
                  · rw [if_pos h7] at h
                    obtain ⟨ts1, hts1, _⟩ := Option.map_eq_some'.mp h
                    subst h7
                    exact clean_cons_plain ',' rest (by decide) (by decide) (by decide)
                      (ih rest ts1 hts1)
                  · rw [if_neg h7] at h
                    by_cases h8 : c = qC
                    · rw [if_pos h8] at h
                      cases hlsb : lexStringBody (rest.length + 1) rest with
                      | none => rw [hlsb] at h; simp at h
                      | some pr =>
                        obtain ⟨s, rest2⟩ := pr
                        rw [hlsb] at h
                        dsimp only at h
                        obtain ⟨ts1, hts1, _⟩ := Option.map_eq_some'.mp h
                        obtain ⟨hsr, hgr⟩ := ih rest2 ts1 hts1
                        obtain ⟨sp, he, hstep, hgood⟩ :=
                          (lexClean (rest.length + 1)).1 rest s rest2 hlsb
                        subst h8
                        constructor
                        · rw [show step1Aux false false (qC :: rest) =
                            qC :: step1Aux true false rest from by
                            simp [step1Aux, show qC ≠ bsC from by decide]]
                          rw [hstep, hsr, ← he]
                        · rw [goodRuns_cons_ne qC rest (by decide)]
                          simp [show qC ≠ nulC from by decide, hgood hgr]
                    · rw [if_neg h8] at h
                      by_cases h9 : startsWith ("true").data (c :: rest) = true
                      · rw [if_pos h9] at h
                        obtain ⟨ts1, hts1, _⟩ := Option.map_eq_some'.mp h
                        have he := startsWith_eq_append _ _ h9
                        rw [show (("true").data).length = 4 from rfl] at he
                        rw [he]
                        exact clean_word_append _ _ (by decide) (ih _ ts1 hts1)
                      · rw [if_neg h9] at h
                        by_cases h10 : startsWith ("false").data (c :: rest) = true
                        · rw [if_pos h10] at h
                          obtain ⟨ts1, hts1, _⟩ := Option.map_eq_some'.mp h
                          have he := startsWith_eq_append _ _ h10
                          rw [show (("false").data).length = 5 from rfl] at he
                          rw [he]
                          exact clean_word_append _ _ (by decide) (ih _ ts1 hts1)
                        · rw [if_neg h10] at h
                          by_cases h11 : startsWith ("null").data (c :: rest) = true
                          · rw [if_pos h11] at h
                            obtain ⟨ts1, hts1, _⟩ := Option.map_eq_some'.mp h
                            have he := startsWith_eq_append _ _ h11
                            rw [show (("null").data).length = 4 from rfl] at he
                            rw [he]
                            exact clean_word_append _ _ (by decide) (ih _ ts1 hts1)
                          · rw [if_neg h11] at h
                            by_cases h12 : startsWith ("NaN").data (c :: rest) = true
                            · rw [if_pos h12] at h
                              obtain ⟨ts1, hts1, _⟩ := Option.map_eq_some'.mp h
                              have he := startsWith_eq_append _ _ h12
                              rw [show (("NaN").data).length = 3 from rfl] at he
                              rw [he]
                              exact clean_word_append _ _ (by decide) (ih _ ts1 hts1)
                            · rw [if_neg h12] at h
                              by_cases h13 : startsWith ("Infinity").data (c :: rest) = true
                              · rw [if_pos h13] at h
                                obtain ⟨ts1, hts1, _⟩ := Option.map_eq_some'.mp h
                                have he := startsWith_eq_append _ _ h13
                                rw [show (("Infinity").data).length = 8 from rfl] at he
                                rw [he]
                                exact clean_word_append _ _ (by decide) (ih _ ts1 hts1)
                              · rw [if_neg h13] at h
                                by_cases h14 : startsWith ("-Infinity").data (c :: rest) = true
                                · rw [if_pos h14] at h
                                  obtain ⟨ts1, hts1, _⟩ := Option.map_eq_some'.mp h
                                  have he := startsWith_eq_append _ _ h14
                                  rw [show (("-Infinity").data).length = 9 from rfl] at he
                                  rw [he]
                                  exact clean_word_append _ _ (by decide) (ih _ ts1 hts1)
                                · rw [if_neg h14] at h
                                  cases hln : lexNumber (c :: rest) with
                                  | none => rw [hln] at h; simp at h
                                  | some pr =>
                                    obtain ⟨raw, rest2⟩ := pr
                                    rw [hln] at h
                                    dsimp only at h
                                    obtain ⟨ts1, hts1, _⟩ := Option.map_eq_some'.mp h
                                    obtain ⟨hsr, hgr⟩ := ih rest2 ts1 hts1
                                    have hsplit : raw = (c :: rest).takeWhile numChar ∧
                                        rest2 = (c :: rest).dropWhile numChar := by
                                      simp only [lexNumber] at hln
                                      split at hln
                                      · simp only [Option.some.injEq,
                                          Prod.mk.injEq] at hln
                                        exact ⟨hln.1.symm, hln.2.symm⟩
                                      · simp at hln
                                    obtain ⟨hraw, hrest2⟩ := hsplit
                                    have happ : c :: rest = raw ++ rest2 := by
                                      rw [hraw, hrest2,
                                        List.takeWhile_append_dropWhile]
                                    have hwfacts : ∀ x ∈ raw,
                                        x ≠ bsC ∧ x ≠ qC ∧ x ≠ nulC := by
                                      intro x hx
                                      apply numChar_facts
                                      apply mem_takeWhile_pred numChar (c :: rest)
                                      rw [← hraw]
                                      exact hx
                                    rw [happ]
                                    exact clean_word_append raw rest2 hwfacts ⟨hsr, hgr⟩

/-- c6: repair is idempotent on already-valid output: for every text that the
structured decode accepts, the repair pass _fix_json_escaping (control
character normalization plus backslash re-escaping with sentinel protection)
leaves the text unchanged, so decoding the repaired text yields exactly the
same data as decoding the text directly. -/
theorem c6_thm : ∀ (cs : List Char) (v : JValue), jsonParse cs = some v →
    fixJsonEscaping cs = cs ∧ jsonParse (fixJsonEscaping cs) = some v := by
  intro cs v h
  have htok : ∃ ts, tokenizeAux (cs.length + 1) cs = some ts := by
    unfold jsonParse tokenize at h
    cases htk : tokenizeAux (cs.length + 1) cs with
    | none => rw [htk] at h; simp at h
    | some ts => exact ⟨ts, rfl⟩
  obtain ⟨ts, hts⟩ := htok
  have hclean := tokenizeAux_clean (cs.length + 1) cs ts hts
  have hid : fixJsonEscaping cs = cs := by
    unfold fixJsonEscaping
    rw [hclean.1]
    exact step2_id cs.length cs (le_refl _) hclean.2
  exact ⟨hid, by rw [hid]; exact h⟩

def jsonW : List Char :=
  lbC :: qC :: 'a' :: qC :: ':' :: qC :: bsC :: 'n' :: qC :: rbC :: []

/-- c6 witness: c6_thm on a concrete object text containing an escaped
newline. -/
theorem c6_witness :
    fixJsonEscaping jsonW = jsonW ∧
    jsonParse (fixJsonEscaping jsonW) =
      some (JValue.obj [('a' :: [], JValue.str ('\n' :: []))]) :=
  c6_thm jsonW (JValue.obj [('a' :: [], JValue.str ('\n' :: []))]) (by rfl)

/-- c5: _parse_response first strips an optional fenced wrapper, then
attempts the structured decode; on failure it applies the repair pass exactly
once (to the stripped text) and re-attempts; it raises a decode error iff
both the direct decode and the single post-repair decode fail, and otherwise
returns the decoded mapping — the control flow contains no second repair. -/
theorem c5_thm : ∀ cs : List Char,
    (parse_response cs = Except.error () ↔
      (jsonParse (stripFence cs) = none ∧
        jsonParse (fixJsonEscaping (stripFence cs)) = none)) ∧
    (∀ v : JValue, parse_response cs = Except.ok v ↔
      (jsonParse (stripFence cs) = some v ∨
        (jsonParse (stripFence cs) = none ∧
          jsonParse (fixJsonEscaping (stripFence cs)) = some v))) := by
  intro cs
  cases h1 : jsonParse (stripFence cs) with
  | some v1 =>
    have hp : parse_response cs = Except.ok v1 := by
      unfold parse_response
      rw [h1]
    rw [hp]
    constructor <;> simp
  | none =>
    cases h2 : jsonParse (fixJsonEscaping (stripFence cs)) with
    | some v2 =>
      have hp : parse_response cs = Except.ok v2 := by
        unfold parse_response
        rw [h1, h2]
      rw [hp]
      constructor <;> simp
    | none =>
      have hp : parse_response cs = Except.error () := by
        unfold parse_response
        rw [h1, h2]
      rw [hp]
      constructor <;> simp

/-! ## Orchestration (CVMatcherCLI.run) -/

inductive FailReason : Type
| apiError : FailReason
| decodeError : FailReason
| typeError : FailReason
| compileError : List Char → FailReason
deriving DecidableEq, Repr

inductive RunResult : Type
| done : List Char → RunResult
| failed : FailReason → RunResult
deriving DecidableEq, Repr

/-- World: the two external collaborators of a run: the generation call
(which may raise) and the LaTeX compile validation inside
apply_adaptations. -/
structure World where
  genRaw : Except Unit (List Char)
  compileOk : List Char → Bool
  compileMsg : List Char

/-- RunEffects: the outcome, the number of corrective generation calls
(invocations of fix_adaptation_errors) and the list of output-file writes. -/
structure RunEffects where
  result : RunResult
  fixCalls : Nat
  writes : List (List Char)

/-- jLookup: dict lookup built from decode order, later duplicate keys
winning as in a Python dict. -/
def jLookup : List (List Char × JValue) → List Char → Option JValue
| [], _ => none
| (k2, v) :: rest, k =>
  match jLookup rest k with
  | some r => some r
  | none => if k2 = k then some v else none

def asStr : JValue → Option (List Char)
| JValue.str s => some s
| _ => none

def keyStrs : List (List Char) :=
  [("tagline").data, ("highlightbar").data, ("mainbar").data, ("experiences").data,
    ("general_skills").data, ("explanation").data]

def getStrField (ms : List (List Char × JValue)) (k : List Char) :
    Except Unit (Option (List Char)) :=
  match jLookup ms k with
  | none => Except.ok none
  | some jv =>
    match asStr jv with
    | some s => Except.ok (some s)
    | none => Except.error ()

/-- toAdaptations: reading the decoded response the way cli.run and
apply_adaptations use it (key membership then indexing).  An object yields
one optional string per known key; a present key with a non-string value
raises (modelled as error), an array or string response raises at indexing
when it contains one of the keys and otherwise drives no branch, and a
number, boolean or null raises at the membership test. -/
def toAdaptations : JValue → Except Unit Adaptations
| JValue.obj ms =>
  match getStrField ms (("tagline").data) with
  | Except.error _ => Except.error ()
  | Except.ok t =>
    match getStrField ms (("highlightbar").data) with
    | Except.error _ => Except.error ()
    | Except.ok hb =>
      match getStrField ms (("mainbar").data) with
      | Except.error _ => Except.error ()
      | Except.ok mb =>
        match getStrField ms (("experiences").data) with
        | Except.error _ => Except.error ()
        | Except.ok ex =>
          match getStrField ms (("general_skills").data) with
          | Except.error _ => Except.error ()
          | Except.ok gs =>
            Except.ok { tagline := t, highlightbar := hb, mainbar := mb,
                        experiences := ex, general_skills := gs }
| JValue.arr vs =>
  if keyStrs.any (fun k => vs.any (fun v =>
      match v with
      | JValue.str s => s = k
      | _ => false)) then Except.error ()
  else Except.ok {}
| JValue.str s =>
  if keyStrs.any (fun k => occursB k s) then Except.error ()
  else Except.ok {}
| _ => Except.error ()

/-- cliRun: CVMatcherCLI.run with the external collaborators supplied by a
World.  Reading the CV, extracting sections and building the prompt only
shape the request, so the raw response is a World input.  The output file is
written only after apply_adaptations returns, i.e. only after the compile
validation gate passed; every failure (API error, decode error, type error,
compile error) propagates as an exception before the write, and nothing in
cli.run calls GeminiAdapter.fix_adaptation_errors (the method has no call
site in the source), so the corrective-call counter is 0 on every path. -/
def runFailed (r : FailReason) : RunEffects :=
  { result := RunResult.failed r, fixCalls := 0, writes := [] }

/-- compileGate: the tail of apply_adaptations combined with cli.run: build
the candidate, validate it by compiling, write the output file only on
success, raise otherwise. -/
def compileGate (w : World) (cv : List Char) : Except Unit Adaptations → RunEffects
| Except.error _ => runFailed FailReason.typeError
| Except.ok ad =>
  if w.compileOk (applySubstitutions cv ad) then
    { result := RunResult.done (applySubstitutions cv ad), fixCalls := 0,
      writes := [applySubstitutions cv ad] }
  else runFailed (FailReason.compileError w.compileMsg)

def decodeGate (w : World) (cv : List Char) : Except Unit JValue → RunEffects
| Except.error _ => runFailed FailReason.decodeError
| Except.ok v => compileGate w cv (toAdaptations v)

def cliRun (w : World) (cv : List Char) : RunEffects :=
  match w.genRaw with
  | Except.error _ => runFailed FailReason.apiError
  | Except.ok raw => decodeGate w cv (parse_response raw)

theorem cliRun_err (w : World) (cv : List Char) (e : Unit)
    (hg : w.genRaw = Except.error e) :
    cliRun w cv = runFailed FailReason.apiError := by
  unfold cliRun
  rw [hg]

theorem cliRun_ok (w : World) (cv raw : List Char)
    (hg : w.genRaw = Except.ok raw) :
    cliRun w cv = decodeGate w cv (parse_response raw) := by
  unfold cliRun
  rw [hg]

theorem decodeGate_ok (w : World) (cv : List Char) (v : JValue) :
    decodeGate w cv (Except.ok v) = compileGate w cv (toAdaptations v) := rfl

theorem compileGate_ok (w : World) (cv : List Char) (ad : Adaptations) :
    compileGate w cv (Except.ok ad) =
      if w.compileOk (applySubstitutions cv ad) then
        { result := RunResult.done (applySubstitutions cv ad), fixCalls := 0,
          writes := [applySubstitutions cv ad] }
      else runFailed (FailReason.compileError w.compileMsg) := rfl

/-- cliRun_spec: on every path the corrective-call counter is 0, every failed
run writes nothing, and a done run writes exactly the validated candidate. -/
theorem cliRun_spec (w : World) (cv : List Char) :
    (cliRun w cv).fixCalls = 0 ∧
    (∀ r, (cliRun w cv).result = RunResult.failed r → (cliRun w cv).writes = []) ∧
    (∀ out, (cliRun w cv).result = RunResult.done out →
      (cliRun w cv).writes = [out] ∧ w.compileOk out = true) := by
  cases hg : w.genRaw with
  | error e =>
    rw [cliRun_err w cv e hg]
    exact ⟨rfl, fun r _ => rfl, fun out hout => by simp [runFailed] at hout⟩
  | ok raw =>
    rw [cliRun_ok w cv raw hg]
    cases hp : parse_response raw with
    | error e =>
      exact ⟨rfl, fun r _ => rfl,
        fun out hout => by simp [decodeGate, runFailed] at hout⟩
    | ok v =>
      rw [decodeGate_ok]
      cases ht : toAdaptations v with
      | error e =>
        exact ⟨rfl, fun r _ => rfl,
          fun out hout => by simp [compileGate, runFailed] at hout⟩
      | ok ad =>
        rw [compileGate_ok]
        by_cases hc : w.compileOk (applySubstitutions cv ad) = true
        · rw [if_pos hc]
          refine ⟨rfl, fun r hcontra => by simp at hcontra, fun out hout => ?_⟩
          simp only [RunResult.done.injEq] at hout
          rw [← hout]
          exact ⟨rfl, hc⟩
        · rw [if_neg hc]
          exact ⟨rfl, fun r _ => rfl, fun out hout => by simp [runFailed] at hout⟩

/-- c10: on every run that ends in a Failed outcome (generation-call error,
decode failure, bad response shape, or compile-validation failure) the output
file is not written; the output is written exactly once, only on a Done
outcome, whose content is the candidate that passed the compile validation
gate. -/
theorem c10_thm : ∀ (w : World) (cv : List Char),
    (∀ r, (cliRun w cv).result = RunResult.failed r → (cliRun w cv).writes = []) ∧
    (∀ out, (cliRun w cv).result = RunResult.done out →
      (cliRun w cv).writes = [out] ∧ w.compileOk out = true) :=
  fun w cv => ⟨(cliRun_spec w cv).2.1, (cliRun_spec w cv).2.2⟩

def rawT : List Char :=
  lbC :: qC :: (("tagline").data ++ (qC :: ':' :: qC :: (("New").data ++ (qC :: rbC :: []))))

def w10 : World :=
  { genRaw := Except.ok rawT, compileOk := fun _ => true, compileMsg := [] }

def cv10 : List Char := tagAnchor ++ ("Old").data ++ [rbC]

def out10 : List Char := tagAnchor ++ (("New").data ++ [rbC])

/-- c10 witness: c10_thm on a concrete successful run. -/
theorem c10_witness :
    (cliRun w10 cv10).writes = [out10] ∧ w10.compileOk out10 = true :=
  (c10_thm w10 cv10).2 out10 (by rfl)

def rawMb : List Char :=
  lbC :: qC :: (("mainbar").data ++ (qC :: ':' :: qC :: lbC :: qC :: rbC :: []))

def w4 : World :=
  { genRaw := Except.ok rawMb, compileOk := fun _ => false, compileMsg := 'e' :: [] }

def cv4 : List Char := mbA ++ ('X' :: []) ++ mbB

/-- c4 counterexample: a run whose generated mainbar value has an unmatched
opening brace and whose compile validation fails terminates immediately as
Failed after ZERO corrective generation calls (fix_adaptation_errors has no
call site in cli.run), contradicting the claimed exactly-one corrective
call. -/
theorem c4_counterexample :
    (cliRun w4 cv4).result = RunResult.failed (FailReason.compileError ('e' :: [])) ∧
    (cliRun w4 cv4).fixCalls = 0 ∧ (0 : Nat) ≠ 1 := by
  refine ⟨by rfl, by rfl, by decide⟩

/-- c4 (amended): the orchestration issues ZERO corrective generation calls
on every run (GeminiAdapter.fix_adaptation_errors is never invoked); when the
compile validation gate of apply_adaptations fails, the run terminates as
Failed carrying the compile diagnostics, with no retry; and a Done outcome
always means the compile gate passed. -/
theorem c4_amended : ∀ (w : World) (cv : List Char),
    (cliRun w cv).fixCalls = 0 ∧
    (∀ out, (cliRun w cv).result = RunResult.done out → w.compileOk out = true) ∧
    (∀ raw v ad, w.genRaw = Except.ok raw → parse_response raw = Except.ok v →
      toAdaptations v = Except.ok ad →
      w.compileOk (applySubstitutions cv ad) = false →
      (cliRun w cv).result = RunResult.failed (FailReason.compileError w.compileMsg)) := by
  intro w cv
  refine ⟨(cliRun_spec w cv).1,
    fun out hout => ((cliRun_spec w cv).2.2 out hout).2, ?_⟩
  intro raw v ad hg hp ht hc
  rw [cliRun_ok w cv raw hg, hp, decodeGate_ok, ht, compileGate_ok,
    if_neg (by rw [hc]; exact Bool.false_ne_true)]
  rfl

/-- c4 witness: c4_amended on the concrete failing run of the
counterexample. -/
theorem c4_amended_witness :
    (cliRun w4 cv4).fixCalls = 0 ∧
    (cliRun w4 cv4).result = RunResult.failed (FailReason.compileError w4.compileMsg) :=
  ⟨(c4_amended w4 cv4).1,
   (c4_amended w4 cv4).2.2 rawMb
     (JValue.obj [(("mainbar").data, JValue.str (lbC :: []))])
     { mainbar := some (lbC :: []) } rfl (by rfl) (by rfl) (by rfl)⟩
